import Mathlib

/-!
Verification development for the UltraVectorDB repository (TypeScript).

The source is shallowly embedded in Lean:
  * JavaScript numbers are modelled by `ℚ`; the two transcendental library
    functions the code calls, `Math.sqrt` and `Math.sin`, are abstracted as
    function parameters (`sq`, `sine`), and every theorem quantifies over
    them, so each theorem holds in particular for the true functions.
    The `Infinity` distance used for dangling ids is modelled by `Option ℚ`
    with `none` ordered after every rational.
  * `Map` objects are modelled by association lists with first-match lookup
    and replace-in-place update (`alGet` / `alSet`), matching JS `Map`
    insertion-order iteration; `Set` objects by duplicate-free lists with
    append-if-absent insertion (`setAdd`). JS in-place stable `sort` is
    modelled by `List.mergeSort` (stable, as ES2019 requires).
  * The randomized level drawn inside `HNSWGraph.insert` is injected as an
    explicit argument, as the spec itself recommends for verifiability; the
    `searchLayer` fixed-point loop carries explicit fuel `|graph| + 1`, an
    upper bound on the number of improving passes, since every continuing
    pass marks at least one further graph node visited.
-/

/-- Association-list lookup: first entry whose key matches (JS `Map.get`). -/
def alGet {κ α : Type} [DecidableEq κ] (m : List (κ × α)) (k : κ) : Option α :=
  match m with
  | [] => none
  | p :: rest => if p.1 = k then some p.2 else alGet rest k

/-- Association-list update: replace the first matching entry in place,
otherwise append (JS `Map.set`). -/
def alSet {κ α : Type} [DecidableEq κ] (m : List (κ × α)) (k : κ) (v : α) : List (κ × α) :=
  match m with
  | [] => [(k, v)]
  | p :: rest => if p.1 = k then (k, v) :: rest else p :: alSet rest k v

/-- JS `Set.add`: append if not already present (keeps insertion order). -/
def setAdd (s : List String) (x : String) : List String :=
  if x ∈ s then s else s ++ [x]

/-- JS `[...new Set(list)]`: deduplicate keeping first occurrences. -/
def dedup (l : List String) : List String :=
  l.foldl (fun acc x => if x ∈ acc then acc else acc ++ [x]) []

/-- Embeds `src/utils/cosineSimilarity.ts` `cosineSimilarity`. The loop runs
over the shorter length (modelled by `zip`); `Math.sqrt` is the abstracted
parameter `sq`. -/
def cosineSimilarity (sq : ℚ → ℚ) (a b : List ℚ) : ℚ :=
  let ab := a.zip b
  let dot := (ab.map (fun p => p.1 * p.2)).sum
  let normA := (ab.map (fun p => p.1 * p.1)).sum
  let normB := (ab.map (fun p => p.2 * p.2)).sum
  if normA = 0 ∨ normB = 0 then 0 else dot / (sq normA * sq normB)

/-- Embeds the popcount loop of `UltraVectorDB.nanoHammingDistance`
(`while (x) { x &= x - 1; count++ }`). -/
def popLoop (x : Nat) : Nat :=
  if h : x = 0 then 0
  else 1 + popLoop (x &&& (x - 1))
termination_by x
decreasing_by
  have hle : x &&& (x - 1) ≤ x - 1 := Nat.and_le_right
  omega

/-- Embeds `UltraVectorDB.nanoHammingDistance`: xor of the single packed
32-bit words (`a[0] ?? 0`), then popcount. -/
def nanoHammingDistance (a b : List Nat) : Nat :=
  popLoop ((a.headD 0) ^^^ (b.headD 0))

/-- Truncation to an unsigned 32-bit pattern (JS Int32/Uint32 coercion). -/
def toUint32 (x : Nat) : Nat := x % 2 ^ 32

/-- One step of the xorshift RNG of `MatryoshkaGenerator.seededRandom`,
acting on the unsigned 32-bit pattern of the JS Int32 state: `x ^= x << 13;
x ^= x >> 17; x ^= x << 5`. The middle shift is JS arithmetic shift right,
which copies the sign bit into the top 17 bits when bit 31 is set. -/
def xorshiftStep (x : Nat) : Nat :=
  let a := x ^^^ toUint32 (x <<< 13)
  let b := a ^^^ (if a < 2 ^ 31 then a >>> 17 else (a >>> 17) ||| (2 ^ 32 - 2 ^ 15))
  b ^^^ toUint32 (b <<< 5)

/-- State of the closure RNG after n calls, starting from pattern x0. -/
def xorshiftIter (x0 : Nat) : Nat → Nat
  | 0 => x0
  | n + 1 => xorshiftStep (xorshiftIter x0 n)

/-- Embeds `MatryoshkaGenerator.generateRoPEEmbedding`: the seed is the
text's length (`seed || 123456789` falls back when the length is 0), entry i
is `Math.sin(i / dimensions * seed) * 0.5 + rand()` where `rand` has mutated
the xorshift state i+1 times and returns `(x >>> 0) / 4294967296`. -/
def MatryoshkaGenerator.generateRoPEEmbedding (sine : ℚ → ℚ) (text : String)
    (dimensions : Nat) : List ℚ :=
  let seed := text.length
  let x0 := if seed = 0 then 123456789 else seed
  (List.range dimensions).map (fun (i : Nat) =>
    sine ((i : ℚ) / (dimensions : ℚ) * (seed : ℚ)) * 0.5 +
      ((xorshiftIter x0 (i + 1) : Nat) : ℚ) / 4294967296)

/-- JS `text.split(/\s+/).filter(Boolean)`. -/
def splitTokens (text : String) : List String :=
  (text.split (fun c => c.isWhitespace)).filter (fun t => decide (t ≠ ""))

structure MatryoshkaEmbeddings where
  full : List ℚ
  medium : List ℚ
  small : List ℚ
  tiny : List Nat
  nano : List Nat
deriving DecidableEq

structure ColbertData where
  tokens : List String
  embeddings : List (List ℚ)
  importance : List ℚ
deriving DecidableEq

/-- Return bundle of `MatryoshkaGenerator.generateAll`. -/
structure GenOut where
  matryoshka : MatryoshkaEmbeddings
  colbert : ColbertData
deriving DecidableEq

/-- Embeds `MatryoshkaGenerator.generateAll`: full 768d embedding, medium and
small as prefix truncations, tiny/nano as per-dimension 0.5-threshold bit
encodings of the leading dimensions of `full`, plus ColBERT token data
(per-token 32d sin-derived vectors, uniform importance 1.0). -/
def MatryoshkaGenerator.generateAll (sine : ℚ → ℚ) (text : String) : GenOut :=
  let full := MatryoshkaGenerator.generateRoPEEmbedding sine text 768
  let medium := full.take 256
  let small := full.take 128
  let tiny := (List.range 64).map (fun i => if 0.5 < full.getD i 0 then (1 : Nat) else 0)
  let nano :=
    [(List.range 32).foldl (fun acc i => if 0.5 < full.getD i 0 then acc ||| (1 <<< i) else acc) 0]
  let tokens := splitTokens text
  let embeddings :=
    tokens.map (fun t => (List.range 32).map (fun j => sine (((t.length : ℚ) + (j : ℚ)) * 0.1)))
  let importance := tokens.map (fun _ => (1 : ℚ))
  ⟨⟨full, medium, small, tiny, nano⟩, ⟨tokens, embeddings, importance⟩⟩

/-- Node of the HNSW graph (`src/src/HNSWGraph.ts`): per-layer neighbor sets
keyed by layer number. -/
structure HNSWNode where
  id : String
  vector : List ℚ
  level : Nat
  neighbors : List (Nat × List String)
deriving DecidableEq

/-- State of `HNSWGraph`: node map, current maximum layer, entry point, and
the constructor configuration `M` / `efConstruction` (the level decay factor
only feeds the random level draw, which is injected, so it is not carried). -/
structure HNSWGraph where
  M : Nat
  efConstruction : Nat
  graph : List (String × HNSWNode)
  maxLevel : Nat
  entryPointId : Option String
deriving DecidableEq

/-- A freshly constructed `new HNSWGraph(M, efConstruction)`. -/
def HNSWGraph.mkEmpty (M efConstruction : Nat) : HNSWGraph :=
  ⟨M, efConstruction, [], 0, none⟩

/-- Distance of `base` to the node registered under `nid`; `none` models the
`Infinity` used when the id is missing from the node map. -/
def scoreDist (gmap : List (String × HNSWNode)) (sq : ℚ → ℚ) (base : List ℚ)
    (nid : String) : Option ℚ :=
  match alGet gmap nid with
  | none => none
  | some n => some (1 - cosineSimilarity sq base n.vector)

/-- Comparison used when sorting scored ids: `Infinity` (`none`) sorts after
every finite distance, and ties keep their relative order (stable sort). -/
def optLE : Option ℚ → Option ℚ → Bool
  | some x, some y => decide (x ≤ y)
  | some _, none => true
  | none, some _ => false
  | none, none => true

/-- Body of the `for (const neighborId of neighbors)` loop inside
`searchLayer`: skip visited ids, mark visited, skip dangling ids, push the
scored neighbor, truncate the candidate list to the `ef` nearest when it
overflows, and flag that the pass changed something. -/
def expandStep (gmap : List (String × HNSWNode)) (sq : ℚ → ℚ) (query : List ℚ) (ef : Nat)
    (st : List String × List (String × ℚ) × Bool) (nid : String) :
    List String × List (String × ℚ) × Bool :=
  let (visited, cands, changed) := st
  if nid ∈ visited then (visited, cands, changed)
  else
    let visited := nid :: visited
    match alGet gmap nid with
    | none => (visited, cands, changed)
    | some nnode =>
      let d := 1 - cosineSimilarity sq query nnode.vector
      let cands := cands ++ [(nid, d)]
      let cands :=
        if ef < cands.length
        then (cands.mergeSort (fun a b => decide (a.2 ≤ b.2))).take ef
        else cands
      (visited, cands, true)

/-- The `while (changed)` loop of `searchLayer`: sort the candidates, expand
the current nearest candidate's neighbor set at the layer, and repeat while a
pass discovered a new node. The empty-candidates case is unreachable in every
call the code makes (`ef ≥ 1` keeps the list non-empty); a missing current
node models the loop's `break`. -/
def searchLayerLoop (gmap : List (String × HNSWNode)) (sq : ℚ → ℚ) (query : List ℚ)
    (ef layer : Nat) : Nat → List String → List (String × ℚ) → List (String × ℚ)
  | 0, _, cands => cands
  | fuel + 1, visited, cands =>
    match cands.mergeSort (fun a b => decide (a.2 ≤ b.2)) with
    | [] => []
    | current :: rest =>
      match alGet gmap current.1 with
      | none => current :: rest
      | some currentNode =>
        let st := ((alGet currentNode.neighbors layer).getD []).foldl
          (expandStep gmap sq query ef) (visited, current :: rest, false)
        if st.2.2 then searchLayerLoop gmap sq query ef layer fuel st.1 st.2.1 else st.2.1

/-- Embeds `HNSWGraph.searchLayer`: beam search of width `ef` at a layer from
an entry point, returning up to `ef` ids ordered nearest first. -/
def HNSWGraph.searchLayer (gmap : List (String × HNSWNode)) (sq : ℚ → ℚ) (query : List ℚ)
    (ef layer : Nat) (entryPointId : String) : List String :=
  match alGet gmap entryPointId with
  | none => []
  | some entryNode =>
    let distEntry := 1 - cosineSimilarity sq query entryNode.vector
    let out := searchLayerLoop gmap sq query ef layer (gmap.length + 1)
      [entryPointId] [(entryPointId, distEntry)]
    ((out.mergeSort (fun a b => decide (a.2 ≤ b.2))).take ef).map (fun c => c.1)

/-- Embeds `HNSWGraph.selectNeighbors`: keep all candidates when at most `M`,
otherwise the `M` nearest to the new vector. -/
def HNSWGraph.selectNeighbors (gmap : List (String × HNSWNode)) (sq : ℚ → ℚ)
    (candidates : List String) (M : Nat) (newVector : List ℚ) : List String :=
  if candidates.length ≤ M then candidates
  else
    let scored := candidates.map (fun id => (id, scoreDist gmap sq newVector id))
    ((scored.mergeSort (fun a b => optLE a.2 b.2)).take M).map (fun s => s.1)

/-- Embeds `HNSWGraph.trimNeighbors`: if a node's layer set exceeds `M`, keep
its `M` nearest neighbors (distance from the node's own vector). -/
def HNSWGraph.trimNeighbors (gmap : List (String × HNSWNode)) (sq : ℚ → ℚ)
    (node : HNSWNode) (layer M : Nat) : HNSWNode :=
  match alGet node.neighbors layer with
  | none => node
  | some s =>
    if s.length ≤ M then node
    else
      let scored := s.map (fun id => (id, scoreDist gmap sq node.vector id))
      let keep := ((scored.mergeSort (fun a b => optLE a.2 b.2)).take M).map (fun x => x.1)
      { node with neighbors := alSet node.neighbors layer keep }

/-- JS `if (candidates.length > 0) currentEntryId = candidates[0]`: first
element of a candidate list, or the previous entry when there is none. -/
def headOr (l : List String) (d : String) : String :=
  match l with
  | [] => d
  | c :: _ => c

/-- One layer of the coarse top-down positioning loop: a width-1 beam search
whose best result (if any) becomes the next entry point. -/
def descendStep (gmap : List (String × HNSWNode)) (sq : ℚ → ℚ) (query : List ℚ)
    (cur : String) (l : Nat) : String :=
  headOr (HNSWGraph.searchLayer gmap sq query 1 l cur) cur

/-- The coarse top-down positioning loop shared by `insert` and `search`. -/
def HNSWGraph.descend (gmap : List (String × HNSWNode)) (sq : ℚ → ℚ) (query : List ℚ)
    (layers : List Nat) (cur : String) : String :=
  layers.foldl (descendStep gmap sq query) cur

/-- Body of the `for (const neighborId of selectedNeighbors)` loop inside
`insert`: record the forward link on the new node, then (when the neighbor
exists) record the back link and re-trim that neighbor's layer set. -/
def linkNeighbor (sq : ℚ → ℚ) (M : Nat) (id : String) (l : Nat)
    (st : List (String × HNSWNode) × List (Nat × List String)) (neighborId : String) :
    List (String × HNSWNode) × List (Nat × List String) :=
  let nn := alSet st.2 l (setAdd ((alGet st.2 l).getD []) neighborId)
  match alGet st.1 neighborId with
  | none => (st.1, nn)
  | some neighborNode =>
    let neighborNode :=
      if (alGet neighborNode.neighbors l).isNone
      then { neighborNode with neighbors := alSet neighborNode.neighbors l [] }
      else neighborNode
    let withBack := alSet neighborNode.neighbors l
      (setAdd ((alGet neighborNode.neighbors l).getD []) id)
    let neighborNode := { neighborNode with neighbors := withBack }
    let neighborNode := HNSWGraph.trimNeighbors st.1 sq neighborNode l M
    (alSet st.1 neighborId neighborNode, nn)

/-- The `for (let l = level; l >= 0; l--)` linking loop of `insert`, carried
over the evolving node map, the new node's neighbor map, and the moving entry
point. -/
def linkLayers (sq : ℚ → ℚ) (M efC : Nat) (id : String) (vector : List ℚ) :
    List Nat → List (String × HNSWNode) × List (Nat × List String) × String
      → List (String × HNSWNode) × List (Nat × List String) × String
  | [], st => st
  | l :: rest, (gmap, nn, cur) =>
    let candidates := HNSWGraph.searchLayer gmap sq vector efC l cur
    let selected := HNSWGraph.selectNeighbors gmap sq candidates M vector
    let st := selected.foldl (fun st nid => linkNeighbor sq M id l st nid) (gmap, nn)
    linkLayers sq M efC id vector rest (st.1, st.2, headOr candidates cur)

/-- Embeds `HNSWGraph.insert` with the randomly drawn level injected as the
`level` argument: empty-graph fast path, entry-point/max-layer update for
high nodes, coarse descent, per-layer candidate search / neighbor selection /
bidirectional linking with re-trimming, and the final commit of the node. -/
def HNSWGraph.insert (g : HNSWGraph) (sq : ℚ → ℚ) (id : String) (vector : List ℚ)
    (level : Nat) : HNSWGraph :=
  let newNeighbors := (List.range (level + 1)).map (fun l => (l, ([] : List String)))
  match g.entryPointId with
  | none =>
    { g with graph := alSet g.graph id ⟨id, vector, level, newNeighbors⟩,
             entryPointId := some id, maxLevel := level }
  | some e0 =>
    if g.graph = [] then
      { g with graph := alSet g.graph id ⟨id, vector, level, newNeighbors⟩,
               entryPointId := some id, maxLevel := level }
    else
      let maxLevel := if g.maxLevel < level then level else g.maxLevel
      let entryPointId := if g.maxLevel < level then id else e0
      let cur := HNSWGraph.descend g.graph sq vector
        ((List.range' (level + 1) (maxLevel - level)).reverse) entryPointId
      let st := linkLayers sq g.M g.efConstruction id vector
        ((List.range (level + 1)).reverse) (g.graph, newNeighbors, cur)
      { g with graph := alSet st.1 id ⟨id, vector, level, st.2.1⟩,
               maxLevel := maxLevel, entryPointId := some entryPointId }

/-- Embeds `HNSWGraph.search`: empty / falsy entry point gives `[]`,
otherwise coarse descent to `targetLevel + 1` followed by the fine beam
search of width `ef` at `targetLevel`. (JS `!this.entryPointId` is also true
for the empty-string id, hence the extra disjunct.) -/
def HNSWGraph.search (g : HNSWGraph) (sq : ℚ → ℚ) (queryVector : List ℚ) (ef : Nat)
    (targetLevel : Nat) : List String :=
  match g.entryPointId with
  | none => []
  | some e =>
    if e = "" ∨ g.graph = [] then []
    else
      let cur := HNSWGraph.descend g.graph sq queryVector
        ((List.range' (targetLevel + 1) (g.maxLevel - targetLevel)).reverse) e
      HNSWGraph.searchLayer g.graph sq queryVector ef targetLevel cur

/-- Chunk as stored by `UltraVectorDB` (`src/types.ts` `UltraChunk`); the
opaque `metadata` bag is never read by any modelled operation and is
omitted. -/
structure UltraChunk where
  id : String
  content : String
  matryoshka : MatryoshkaEmbeddings
  colbert : ColbertData
deriving DecidableEq

structure SearchBreakdown where
  binary : Nat
  hnsw : ℚ
  colbert : ℚ
  final : ℚ
deriving DecidableEq

structure SearchResult where
  chunk : UltraChunk
  score : ℚ
  breakdown : SearchBreakdown
deriving DecidableEq

/-- State of `UltraVectorDB`: the chunk store and the HNSW index. -/
structure UltraVectorDB where
  M : Nat
  efConstruction : Nat
  dataStore : List (String × UltraChunk)
  hnsw : HNSWGraph
deriving DecidableEq

/-- A freshly constructed `new UltraVectorDB(M, efConstruction)`. -/
def UltraVectorDB.mkEmpty (M efConstruction : Nat) : UltraVectorDB :=
  ⟨M, efConstruction, [], HNSWGraph.mkEmpty M efConstruction⟩

/-- Embeds the query-token embedding rule of the placeholder `ColBERTEngine`
(`vec[i] = Math.sin((token.length + i) * 0.05)`). -/
def ColBERTEngine.makeQueryTokenEmbedding (sine : ℚ → ℚ) (token : String) : List ℚ :=
  (List.range 32).map (fun (i : Nat) => sine (((token.length : ℚ) + (i : ℚ)) * 0.05))

/-- Embeds `ColBERTEngine.score`: guard empty token data, split the query,
and average over the query tokens the importance-weighted maximum cosine
similarity against the document token embeddings (maximum floored at 0). -/
def ColBERTEngine.score (sq sine : ℚ → ℚ) (query : String) (doc : ColbertData) : ℚ :=
  if doc.tokens = [] ∨ doc.embeddings = [] then 0
  else
    let queryTokens := splitTokens query
    if queryTokens = [] then 0
    else
      let queryEmbeddings := queryTokens.map (ColBERTEngine.makeQueryTokenEmbedding sine)
      let total := (queryEmbeddings.map (fun qEmb =>
        doc.embeddings.enum.foldl (fun maxSim de =>
          let sim := cosineSimilarity sq qEmb de.2 * (doc.importance.getD de.1 1)
          if maxSim < sim then sim else maxSim) 0)).sum
      total / (queryTokens.length : ℚ)

/-- Embeds `UltraVectorDB.addChunk` (the inserted node's random level is
injected): generate the bundle, store the chunk, index its medium vector. -/
def UltraVectorDB.addChunk (db : UltraVectorDB) (sq sine : ℚ → ℚ) (id content : String)
    (level : Nat) : UltraVectorDB :=
  let g := MatryoshkaGenerator.generateAll sine content
  { db with
    dataStore := alSet db.dataStore id ⟨id, content, g.matryoshka, g.colbert⟩,
    hnsw := db.hnsw.insert sq id g.matryoshka.medium level }

/-- Embeds `UltraVectorDB.getBinaryCandidates`: Hamming-score every stored
chunk's nano sketch against the query's and keep the `min(limit, n)` nearest. -/
def UltraVectorDB.getBinaryCandidates (db : UltraVectorDB) (queryNano : List Nat)
    (limit : Nat) : List String :=
  if db.dataStore = [] then []
  else
    let scored := db.dataStore.map (fun p =>
      (p.1, nanoHammingDistance queryNano p.2.matryoshka.nano))
    ((scored.mergeSort (fun a b => decide (a.2 ≤ b.2))).take (min limit scored.length)).map
      (fun s => s.1)

/-- Scoring of one candidate chunk inside `ultraSearch` (Stages 3 and 4 and
the breakdown record): combined score `colbert * 0.6 + fullCosine * 0.4`. -/
def UltraVectorDB.scoreChunk (sq sine : ℚ → ℚ) (query : String) (queryFull : List ℚ)
    (queryNano : List Nat) (chunk : UltraChunk) : SearchResult :=
  let colbertScore := ColBERTEngine.score sq sine query chunk.colbert
  let fullScore := cosineSimilarity sq queryFull chunk.matryoshka.full
  let combined := colbertScore * 0.6 + fullScore * 0.4
  ⟨chunk, combined,
    ⟨nanoHammingDistance queryNano chunk.matryoshka.nano, 0, colbertScore, fullScore⟩⟩

/-- Embeds `UltraVectorDB.ultraSearch`: guard, query bundle, Stage 1 binary
prefilter (limit 500), Stage 2 HNSW search (ef 50 at layer 0), merge and
deduplicate, score every surviving candidate, sort by descending combined
score and truncate to `limit`. -/
def UltraVectorDB.ultraSearch (db : UltraVectorDB) (sq sine : ℚ → ℚ) (query : String)
    (limit : Nat) : List SearchResult :=
  if query.trim = "" ∨ db.dataStore = [] then []
  else
    let qMat := (MatryoshkaGenerator.generateAll sine query).matryoshka
    let binaryCandidates := db.getBinaryCandidates qMat.nano 500
    let hnswCandidates := db.hnsw.search sq qMat.medium 50 0
    let finalCandidates := dedup (binaryCandidates ++ hnswCandidates)
    let results := finalCandidates.filterMap (fun id =>
      (alGet db.dataStore id).map (UltraVectorDB.scoreChunk sq sine query qMat.full qMat.nano))
    (results.mergeSort (fun a b => decide (b.score ≤ a.score))).take limit

/-- Modelled from the words of claim C10: a naive implementation that skips
Stages 1 and 2 and scores every stored chunk directly, keeping the guard,
the per-chunk scoring, the descending sort and the truncation. -/
def UltraVectorDB.naiveSearch (db : UltraVectorDB) (sq sine : ℚ → ℚ) (query : String)
    (limit : Nat) : List SearchResult :=
  if query.trim = "" ∨ db.dataStore = [] then []
  else
    let qMat := (MatryoshkaGenerator.generateAll sine query).matryoshka
    let results := db.dataStore.map (fun p =>
      UltraVectorDB.scoreChunk sq sine query qMat.full qMat.nano p.2)
    (results.mergeSort (fun a b => decide (b.score ≤ a.score))).take limit

/-- An id occurring in some node's neighbor set at the given layer; the beam
search at a layer can only ever reach the entry point or such ids. -/
def inLayerSet (gmap : List (String × HNSWNode)) (layer : Nat) (i : String) : Prop :=
  ∃ k n s, alGet gmap k = some n ∧ alGet n.neighbors layer = some s ∧ i ∈ s

/-- Well-formedness invariant of the graph state, maintained by sequences of
insertions with pairwise-distinct ids (supports claim C2): keys are unique,
every node registers neighbor sets for exactly the layers 0..level, each set
is bounded by M, every neighbor reference resolves to a node participating in
that layer, the entry point is the (resolvable) highest node, and the global
max layer bounds every node level (and is 0 for the empty graph). -/
structure HNSWGraph.WF (g : HNSWGraph) : Prop where
  keysNodup : (g.graph.map Prod.fst).Nodup
  layerKeys : ∀ p ∈ g.graph, p.2.neighbors.map Prod.fst = List.range (p.2.level + 1)
  sizes : ∀ p ∈ g.graph, ∀ e ∈ p.2.neighbors, e.2.length ≤ g.M
  members : ∀ p ∈ g.graph, ∀ e ∈ p.2.neighbors, ∀ nid ∈ e.2,
    ∃ m, alGet g.graph nid = some m ∧ e.1 ≤ m.level
  entryNone : g.entryPointId = none → g.graph = []
  entrySome : ∀ e, g.entryPointId = some e →
    ∃ n, alGet g.graph e = some n ∧ n.level = g.maxLevel
  levels : ∀ p ∈ g.graph, p.2.level ≤ g.maxLevel
  emptyMax : g.graph = [] → g.maxLevel = 0

/-- Invariant of the evolving node map during the linking phase of an
insertion of `id` (not yet committed) relative to the pre-insertion map
`g0`: keys and node levels are unchanged, and neighbor references resolve
either to live nodes at a sufficient level or to the in-flight id at a layer
within its level. -/
structure MidWF (M : Nat) (g0 : List (String × HNSWNode)) (id : String) (level : Nat)
    (gmap : List (String × HNSWNode)) : Prop where
  keys : gmap.map Prod.fst = g0.map Prod.fst
  levelsEq : ∀ k, (alGet gmap k).map (fun n => n.level) = (alGet g0 k).map (fun n => n.level)
  layerKeys : ∀ p ∈ gmap, p.2.neighbors.map Prod.fst = List.range (p.2.level + 1)
  sizes : ∀ p ∈ gmap, ∀ e ∈ p.2.neighbors, e.2.length ≤ M
  members : ∀ p ∈ gmap, ∀ e ∈ p.2.neighbors, ∀ nid ∈ e.2,
    (nid = id ∧ e.1 ≤ level) ∨ ∃ m, alGet gmap nid = some m ∧ e.1 ≤ m.level

/-- Folding a sequence of injected-level insertions from a fresh graph. -/
def buildGraph (M efC : Nat) (sq : ℚ → ℚ) (ops : List (String × List ℚ × Nat)) : HNSWGraph :=
  ops.foldl (fun g op => g.insert sq op.1 op.2.1 op.2.2) (HNSWGraph.mkEmpty M efC)

theorem popLoop_eq_zero_iff (x : Nat) : popLoop x = 0 ↔ x = 0 := by
  constructor
  · intro h
    by_contra hx
    rw [popLoop] at h
    simp [hx] at h
  · intro h
    subst h
    rw [popLoop]
    simp

/-- Sum over zipped lists equals the sum over the common prefix of indices. -/
theorem zip_map_sum (f : ℚ → ℚ → ℚ) :
    ∀ (a b : List ℚ),
      ((a.zip b).map (fun p => f p.1 p.2)).sum =
        ∑ i ∈ Finset.range (min a.length b.length), f (a.getD i 0) (b.getD i 0) := by
  intro a
  induction a with
  | nil => intro b; simp
  | cons x xs ih =>
    intro b
    cases b with
    | nil => simp
    | cons y ys =>
      simp only [List.zip_cons_cons, List.map_cons, List.sum_cons, List.length_cons,
        Nat.succ_min_succ, Finset.sum_range_succ', List.getD_cons_succ, List.getD_cons_zero]
      rw [ih ys, add_comm]

/-- C5: `cosineSimilarity` computes dot product and both norms over only the
first `min |a| |b|` components, divides the dot product by the product of the
two restricted norms, and returns 0 whenever either restricted norm is zero
(in particular on empty inputs), so the division branch never divides by a
zero guard value. -/
theorem C5_cosineSimilarity_guard (sq : ℚ → ℚ) (a b : List ℚ) :
    (cosineSimilarity sq a b =
      if (∑ i ∈ Finset.range (min a.length b.length), a.getD i 0 * a.getD i 0) = 0 ∨
         (∑ i ∈ Finset.range (min a.length b.length), b.getD i 0 * b.getD i 0) = 0 then 0
      else (∑ i ∈ Finset.range (min a.length b.length), a.getD i 0 * b.getD i 0) /
           (sq (∑ i ∈ Finset.range (min a.length b.length), a.getD i 0 * a.getD i 0) *
            sq (∑ i ∈ Finset.range (min a.length b.length), b.getD i 0 * b.getD i 0))) ∧
    cosineSimilarity sq [] b = 0 ∧ cosineSimilarity sq a [] = 0 := by
  refine ⟨?_, ?_, ?_⟩
  · show (if _ ∨ _ then (0 : ℚ) else _) = _
    rw [zip_map_sum (fun x y => x * y) a b, zip_map_sum (fun x y => x * x) a b,
      zip_map_sum (fun x y => y * y) a b]
  · simp [cosineSimilarity]
  · simp [cosineSimilarity]

/-- C7: the nano Hamming distance is a natural number (hence non-negative),
is symmetric, vanishes exactly when the two packed 32-bit words (`a[0] ?? 0`
and `b[0] ?? 0`) coincide, and in particular vanishes on identical inputs. -/
theorem C7_hammingDistance_metric (a b : List Nat) :
    nanoHammingDistance a b = nanoHammingDistance b a ∧
    (nanoHammingDistance a b = 0 ↔ a.headD 0 = b.headD 0) ∧
    nanoHammingDistance a a = 0 := by
  refine ⟨?_, ?_, ?_⟩
  · unfold nanoHammingDistance
    rw [Nat.xor_comm]
  · unfold nanoHammingDistance
    rw [popLoop_eq_zero_iff, Nat.xor_eq_zero]
  · unfold nanoHammingDistance
    rw [popLoop_eq_zero_iff, Nat.xor_self]

theorem getD_map_range {α : Type} (f : Nat → α) {n i : Nat} (d : α) (h : i < n) :
    ((List.range n).map f).getD i d = f i := by
  rw [List.getD_eq_getElem?_getD, List.getElem?_map, List.getElem?_range h]
  rfl

/-- The bit-or fold over `List.range n` used to build the nano sketch stays
below `2 ^ n` and sets exactly the bits whose dimension passes the test. -/
theorem foldl_or_bits (p : Nat → Prop) [DecidablePred p] (n : Nat) :
    ((List.range n).foldl (fun acc i => if p i then acc ||| (1 <<< i) else acc) 0 < 2 ^ n) ∧
    (∀ j, ((List.range n).foldl (fun acc i => if p i then acc ||| (1 <<< i) else acc) 0).testBit j
      = (decide (j < n) && decide (p j))) := by
  induction n with
  | zero => simp
  | succ n ih =>
    rw [List.range_succ, List.foldl_append]
    obtain ⟨ihlt, ihbit⟩ := ih
    simp only [List.foldl_cons, List.foldl_nil]
    by_cases hp : p n
    · rw [if_pos hp]
      constructor
      · apply Nat.or_lt_two_pow
        · exact lt_trans ihlt (by exact Nat.pow_lt_pow_succ (by norm_num))
        · rw [Nat.shiftLeft_eq, one_mul]
          exact Nat.pow_lt_pow_succ (by norm_num)
      · intro j
        rw [Nat.testBit_or, ihbit j, Nat.shiftLeft_eq, one_mul]
        by_cases hj : j = n
        · subst hj
          simp [Nat.testBit_two_pow_self, hp]
        · rw [Nat.testBit_two_pow_of_ne (fun h => hj h.symm)]
          have : (j < n) ↔ (j < n + 1) := by omega
          simp [this]
    · rw [if_neg hp]
      constructor
      · exact lt_trans ihlt (Nat.pow_lt_pow_succ (by norm_num))
      · intro j
        rw [ihbit j]
        by_cases hj : j = n
        · subst hj
          simp [hp]
        · have : (j < n) ↔ (j < n + 1) := by omega
          simp [this]

set_option maxRecDepth 4000 in
/-- C8: the generated bundle satisfies tier nesting: `full` has 768 entries,
`medium` is its first 256 entries, `small` its first 128; `tiny` holds the
0.5-threshold bits of the first 64 dimensions of `full` and the packed nano
word holds the 0.5-threshold bits of its first 32 dimensions; generation is a
pure function of the text, so repeated generation is identical. -/
theorem C8_tier_nesting (sine : ℚ → ℚ) (text : String) :
    (MatryoshkaGenerator.generateAll sine text).matryoshka.full.length = 768 ∧
    (MatryoshkaGenerator.generateAll sine text).matryoshka.medium
      = (MatryoshkaGenerator.generateAll sine text).matryoshka.full.take 256 ∧
    (MatryoshkaGenerator.generateAll sine text).matryoshka.small
      = (MatryoshkaGenerator.generateAll sine text).matryoshka.full.take 128 ∧
    (MatryoshkaGenerator.generateAll sine text).matryoshka.medium.length = 256 ∧
    (MatryoshkaGenerator.generateAll sine text).matryoshka.small.length = 128 ∧
    (MatryoshkaGenerator.generateAll sine text).matryoshka.tiny.length = 64 ∧
    (∀ i, i < 64 → (MatryoshkaGenerator.generateAll sine text).matryoshka.tiny.getD i 0
      = if 0.5 < (MatryoshkaGenerator.generateAll sine text).matryoshka.full.getD i 0
        then 1 else 0) ∧
    (MatryoshkaGenerator.generateAll sine text).matryoshka.nano.headD 0 < 2 ^ 32 ∧
    (∀ i, i < 32 → ((MatryoshkaGenerator.generateAll sine text).matryoshka.nano.headD 0).testBit i
      = decide (0.5 < (MatryoshkaGenerator.generateAll sine text).matryoshka.full.getD i 0)) ∧
    MatryoshkaGenerator.generateAll sine text = MatryoshkaGenerator.generateAll sine text := by
  have hfull : (MatryoshkaGenerator.generateAll sine text).matryoshka.full
      = MatryoshkaGenerator.generateRoPEEmbedding sine text 768 := rfl
  have hlen : (MatryoshkaGenerator.generateRoPEEmbedding sine text 768).length = 768 := by
    unfold MatryoshkaGenerator.generateRoPEEmbedding
    rw [List.length_map, List.length_range]
  refine ⟨by rw [hfull]; exact hlen, rfl, rfl, ?_, ?_, ?_, ?_, ?_, ?_, rfl⟩
  · rw [show (MatryoshkaGenerator.generateAll sine text).matryoshka.medium
        = (MatryoshkaGenerator.generateRoPEEmbedding sine text 768).take 256 from rfl,
      List.length_take, hlen]
    exact Nat.min_eq_left (by norm_num)
  · rw [show (MatryoshkaGenerator.generateAll sine text).matryoshka.small
        = (MatryoshkaGenerator.generateRoPEEmbedding sine text 768).take 128 from rfl,
      List.length_take, hlen]
    exact Nat.min_eq_left (by norm_num)
  · rw [show (MatryoshkaGenerator.generateAll sine text).matryoshka.tiny
        = (List.range 64).map (fun j =>
            if 0.5 < (MatryoshkaGenerator.generateRoPEEmbedding sine text 768).getD j 0
            then (1 : Nat) else 0) from rfl,
      List.length_map, List.length_range]
  · intro i hi
    rw [show (MatryoshkaGenerator.generateAll sine text).matryoshka.tiny
        = (List.range 64).map (fun j =>
            if 0.5 < (MatryoshkaGenerator.generateRoPEEmbedding sine text 768).getD j 0
            then (1 : Nat) else 0) from rfl,
      getD_map_range _ 0 hi, hfull]
  · rw [show (MatryoshkaGenerator.generateAll sine text).matryoshka.nano.headD 0
        = (List.range 32).foldl (fun acc j =>
            if 0.5 < (MatryoshkaGenerator.generateRoPEEmbedding sine text 768).getD j 0
            then acc ||| (1 <<< j) else acc) 0 from rfl]
    exact (foldl_or_bits
      (fun j => 0.5 < (MatryoshkaGenerator.generateRoPEEmbedding sine text 768).getD j 0) 32).1
  · intro i hi
    rw [show (MatryoshkaGenerator.generateAll sine text).matryoshka.nano.headD 0
        = (List.range 32).foldl (fun acc j =>
            if 0.5 < (MatryoshkaGenerator.generateRoPEEmbedding sine text 768).getD j 0
            then acc ||| (1 <<< j) else acc) 0 from rfl,
      (foldl_or_bits
        (fun j => 0.5 < (MatryoshkaGenerator.generateRoPEEmbedding sine text 768).getD j 0) 32).2 i,
      hfull]
    simp [hi]

/-- C9: `generateRoPEEmbedding` depends on the input text only through its
length (the RNG seed is exactly the text's length), so any two equal-length
texts receive identical full, medium, small, tiny and nano embeddings; only
the token-level ColBERT data can depend on the text's content. -/
theorem C9_equal_length_equal_embeddings (sine : ℚ → ℚ) (s t : String)
    (h : s.length = t.length) :
    (∀ d, MatryoshkaGenerator.generateRoPEEmbedding sine s d
        = MatryoshkaGenerator.generateRoPEEmbedding sine t d) ∧
    (MatryoshkaGenerator.generateAll sine s).matryoshka
      = (MatryoshkaGenerator.generateAll sine t).matryoshka := by
  have hr : ∀ d, MatryoshkaGenerator.generateRoPEEmbedding sine s d
      = MatryoshkaGenerator.generateRoPEEmbedding sine t d := by
    intro d
    unfold MatryoshkaGenerator.generateRoPEEmbedding
    rw [h]
  refine ⟨hr, ?_⟩
  unfold MatryoshkaGenerator.generateAll
  rw [hr 768]

/-- Witness for C9 at the concrete equal-length texts "ab" and "cd". -/
theorem C9_witness :
    ("ab" : String).length = ("cd" : String).length ∧
    (MatryoshkaGenerator.generateAll (fun _ => 0) "ab").matryoshka
      = (MatryoshkaGenerator.generateAll (fun _ => 0) "cd").matryoshka :=
  ⟨by decide, (C9_equal_length_equal_embeddings (fun _ => 0) "ab" "cd" (by decide)).2⟩

theorem alGet_mem {κ α : Type} [DecidableEq κ] {k : κ} {v : α} :
    ∀ {m : List (κ × α)}, alGet m k = some v → (k, v) ∈ m := by
  intro m
  induction m with
  | nil => intro h; simp [alGet] at h
  | cons p rest ih =>
    intro h
    obtain ⟨a, b⟩ := p
    rw [alGet] at h
    by_cases hp : a = k
    · simp only [hp, if_pos] at h
      injection h with h2
      subst hp
      subst h2
      exact List.mem_cons_self _ _
    · simp only [if_neg hp] at h
      exact List.mem_cons_of_mem _ (ih h)

theorem alGet_mem_keys {κ α : Type} [DecidableEq κ] {m : List (κ × α)} {k : κ} {v : α}
    (h : alGet m k = some v) : k ∈ m.map Prod.fst :=
  List.mem_map_of_mem Prod.fst (alGet_mem h)

theorem perm_ne_nil {α : Type} {l1 l2 : List α} (h : l1.Perm l2) (h1 : l1 ≠ []) : l2 ≠ [] := by
  intro h2
  subst h2
  exact h1 (List.Perm.eq_nil h)

theorem take_ne_nil {α : Type} {l : List α} {n : Nat} (hn : 1 ≤ n) (h : l ≠ []) :
    l.take n ≠ [] := by
  cases l with
  | nil => exact absurd rfl h
  | cons x xs =>
    cases n with
    | zero => omega
    | succ m => simp

theorem mem_take_mergeSort {α : Type} {x : α} {l : List α} {le : α → α → Bool} {n : Nat}
    (h : x ∈ (l.mergeSort le).take n) : x ∈ l :=
  List.mem_mergeSort.1 (List.mem_of_mem_take h)

theorem nodup_map_take_mergeSort {α β : Type} (f : α → β) (l : List α) (le : α → α → Bool)
    (n : Nat) (h : (l.map f).Nodup) : (((l.mergeSort le).take n).map f).Nodup := by
  have hperm : ((l.mergeSort le).map f).Perm (l.map f) := (List.mergeSort_perm l le).map f
  have hnd : ((l.mergeSort le).map f).Nodup := hperm.nodup_iff.mpr h
  rw [List.map_take]
  exact List.Nodup.sublist (List.take_sublist _ _) hnd

/-- Invariants of the neighbor-expansion fold inside `searchLayer`: candidate
ids stay pairwise distinct, recorded as visited, resolvable in the node map,
and drawn from the initial candidates or the expanded neighbor list; with a
positive beam width a non-empty candidate list stays non-empty. -/
theorem expand_fold_inv (gmap : List (String × HNSWNode)) (sq : ℚ → ℚ) (query : List ℚ)
    (ef : Nat) :
    ∀ (nbrs : List String) (visited : List String) (cands : List (String × ℚ)) (b : Bool),
      (cands.map Prod.fst).Nodup →
      (∀ c ∈ cands, c.1 ∈ visited) →
      (∀ c ∈ cands, ∃ n, alGet gmap c.1 = some n) →
      (((nbrs.foldl (expandStep gmap sq query ef) (visited, cands, b)).2.1.map Prod.fst).Nodup ∧
        (∀ c ∈ (nbrs.foldl (expandStep gmap sq query ef) (visited, cands, b)).2.1,
          c.1 ∈ (nbrs.foldl (expandStep gmap sq query ef) (visited, cands, b)).1) ∧
        (∀ c ∈ (nbrs.foldl (expandStep gmap sq query ef) (visited, cands, b)).2.1,
          ∃ n, alGet gmap c.1 = some n) ∧
        (∀ c ∈ (nbrs.foldl (expandStep gmap sq query ef) (visited, cands, b)).2.1,
          c.1 ∈ cands.map Prod.fst ∨ c.1 ∈ nbrs) ∧
        (1 ≤ ef → cands ≠ [] →
          (nbrs.foldl (expandStep gmap sq query ef) (visited, cands, b)).2.1 ≠ [])) := by
  intro nbrs
  induction nbrs with
  | nil =>
    intro visited cands b h1 h2 h3
    simp only [List.foldl_nil]
    exact ⟨h1, h2, h3, fun c hc => Or.inl (List.mem_map_of_mem _ hc), fun _ h => h⟩
  | cons nid rest ih =>
    intro visited cands b h1 h2 h3
    rw [List.foldl_cons]
    by_cases hv : nid ∈ visited
    · have hstep : expandStep gmap sq query ef (visited, cands, b) nid = (visited, cands, b) := by
        simp [expandStep, hv]
      rw [hstep]
      obtain ⟨a1, a2, a3, a4, a5⟩ := ih visited cands b h1 h2 h3
      exact ⟨a1, a2, a3, fun c hc => (a4 c hc).imp id (List.mem_cons_of_mem _), a5⟩
    · cases hg : alGet gmap nid with
      | none =>
        have hstep : expandStep gmap sq query ef (visited, cands, b) nid
            = (nid :: visited, cands, b) := by
          simp [expandStep, hv, hg]
        rw [hstep]
        have h2x : ∀ c ∈ cands, c.1 ∈ nid :: visited :=
          fun c hc => List.mem_cons_of_mem _ (h2 c hc)
        obtain ⟨a1, a2, a3, a4, a5⟩ := ih (nid :: visited) cands b h1 h2x h3
        exact ⟨a1, a2, a3, fun c hc => (a4 c hc).imp id (List.mem_cons_of_mem _), a5⟩
      | some nnode =>
        have hnid : nid ∉ cands.map Prod.fst := by
          intro hmem
          obtain ⟨c, hc, hfst⟩ := List.mem_map.1 hmem
          exact hv (hfst ▸ h2 c hc)
        have hstep : expandStep gmap sq query ef (visited, cands, b) nid
            = (nid :: visited,
               if ef < (cands ++ [(nid, 1 - cosineSimilarity sq query nnode.vector)]).length
               then ((cands ++ [(nid, 1 - cosineSimilarity sq query nnode.vector)]).mergeSort
                      (fun a b => decide (a.2 ≤ b.2))).take ef
               else cands ++ [(nid, 1 - cosineSimilarity sq query nnode.vector)],
               true) := by
          simp [expandStep, hv, hg]
        rw [hstep]
        set d := 1 - cosineSimilarity sq query nnode.vector with hd
        set cands1 := cands ++ [(nid, d)] with hc1
        have hnd1 : (cands1.map Prod.fst).Nodup := by
          rw [hc1, List.map_append]
          simp only [List.map_cons, List.map_nil]
          exact List.Nodup.append h1 (List.nodup_singleton nid)
            (by intro x hx hy; simp at hy; subst hy; exact hnid hx)
        have hvis1 : ∀ c ∈ cands1, c.1 ∈ nid :: visited := by
          intro c hc
          rcases List.mem_append.1 hc with hL | hR
          · exact List.mem_cons_of_mem _ (h2 c hL)
          · simp at hR
            subst hR
            exact List.mem_cons_self _ _
        have hlook1 : ∀ c ∈ cands1, ∃ n, alGet gmap c.1 = some n := by
          intro c hc
          rcases List.mem_append.1 hc with hL | hR
          · exact h3 c hL
          · simp at hR
            subst hR
            exact ⟨nnode, hg⟩
        have hsub1 : ∀ c : String × ℚ, c ∈ cands1 → c.1 ∈ cands.map Prod.fst ∨ c.1 = nid := by
          intro c hc
          rcases List.mem_append.1 hc with hL | hR
          · exact Or.inl (List.mem_map_of_mem _ hL)
          · simp at hR
            subst hR
            exact Or.inr rfl
        by_cases htr : ef < cands1.length
        · rw [if_pos htr]
          set cands2 := (cands1.mergeSort (fun a b => decide (a.2 ≤ b.2))).take ef with hc2
          have hmem2 : ∀ c : String × ℚ, c ∈ cands2 → c ∈ cands1 :=
            fun c hc => mem_take_mergeSort hc
          have hnd2 : (cands2.map Prod.fst).Nodup :=
            nodup_map_take_mergeSort Prod.fst cands1 _ ef hnd1
          have hvis2 : ∀ c ∈ cands2, c.1 ∈ nid :: visited :=
            fun c hc => hvis1 c (hmem2 c hc)
          have hlook2 : ∀ c ∈ cands2, ∃ n, alGet gmap c.1 = some n :=
            fun c hc => hlook1 c (hmem2 c hc)
          obtain ⟨a1, a2, a3, a4, a5⟩ := ih (nid :: visited) cands2 true hnd2 hvis2 hlook2
          refine ⟨a1, a2, a3, ?_, ?_⟩
          · intro c hc
            rcases a4 c hc with hin | hin
            · obtain ⟨c2, hc2m, hfst⟩ := List.mem_map.1 hin
              rcases hsub1 c2 (hmem2 c2 hc2m) with hL | hR
              · exact Or.inl (hfst ▸ hL)
              · exact Or.inr (by rw [← hfst, hR]; exact List.mem_cons_self _ _)
            · exact Or.inr (List.mem_cons_of_mem _ hin)
          · intro hef _
            apply a5 hef
            rw [hc2]
            apply take_ne_nil hef
            apply perm_ne_nil (List.mergeSort_perm cands1 _).symm
            rw [hc1]
            exact List.append_ne_nil_of_right_ne_nil _ (by simp)
        · rw [if_neg htr]
          obtain ⟨a1, a2, a3, a4, a5⟩ := ih (nid :: visited) cands1 true hnd1 hvis1 hlook1
          refine ⟨a1, a2, a3, ?_, ?_⟩
          · intro c hc
            rcases a4 c hc with hin | hin
            · obtain ⟨c2, hc2m, hfst⟩ := List.mem_map.1 hin
              rcases hsub1 c2 hc2m with hL | hR
              · exact Or.inl (hfst ▸ hL)
              · exact Or.inr (by rw [← hfst, hR]; exact List.mem_cons_self _ _)
            · exact Or.inr (List.mem_cons_of_mem _ hin)
          · intro hef _
            apply a5 hef
            rw [hc1]
            exact List.append_ne_nil_of_right_ne_nil _ (by simp)

theorem slLoop_eq_nil (gmap : List (String × HNSWNode)) (sq : ℚ → ℚ) (query : List ℚ)
    (ef layer fuel : Nat) (visited : List String) (cands : List (String × ℚ))
    (h : cands.mergeSort (fun a b => decide (a.2 ≤ b.2)) = []) :
    searchLayerLoop gmap sq query ef layer (fuel + 1) visited cands = [] := by
  rw [searchLayerLoop, h]

theorem slLoop_eq_break (gmap : List (String × HNSWNode)) (sq : ℚ → ℚ) (query : List ℚ)
    (ef layer fuel : Nat) (visited : List String) (cands : List (String × ℚ))
    (current : String × ℚ) (rest : List (String × ℚ))
    (h : cands.mergeSort (fun a b => decide (a.2 ≤ b.2)) = current :: rest)
    (h2 : alGet gmap current.1 = none) :
    searchLayerLoop gmap sq query ef layer (fuel + 1) visited cands = current :: rest := by
  rw [searchLayerLoop, h]
  simp only [h2]

theorem slLoop_eq_go (gmap : List (String × HNSWNode)) (sq : ℚ → ℚ) (query : List ℚ)
    (ef layer fuel : Nat) (visited : List String) (cands : List (String × ℚ))
    (current : String × ℚ) (rest : List (String × ℚ)) (currentNode : HNSWNode)
    (h : cands.mergeSort (fun a b => decide (a.2 ≤ b.2)) = current :: rest)
    (h2 : alGet gmap current.1 = some currentNode) :
    searchLayerLoop gmap sq query ef layer (fuel + 1) visited cands =
      (if (((alGet currentNode.neighbors layer).getD []).foldl
            (expandStep gmap sq query ef) (visited, current :: rest, false)).2.2
       then searchLayerLoop gmap sq query ef layer fuel
         (((alGet currentNode.neighbors layer).getD []).foldl
            (expandStep gmap sq query ef) (visited, current :: rest, false)).1
         (((alGet currentNode.neighbors layer).getD []).foldl
            (expandStep gmap sq query ef) (visited, current :: rest, false)).2.1
       else (((alGet currentNode.neighbors layer).getD []).foldl
            (expandStep gmap sq query ef) (visited, current :: rest, false)).2.1) := by
  rw [searchLayerLoop, h]
  simp only [h2]

/-- Invariants of the `while (changed)` loop of `searchLayer`, for any fuel:
the returned candidates have pairwise-distinct ids, each resolves in the node
map and satisfies any property `P` holding of the initial candidates and of
all layer-set members; with a positive beam width the result is non-empty
whenever the initial candidate list is. -/
theorem searchLayerLoop_inv (gmap : List (String × HNSWNode)) (sq : ℚ → ℚ) (query : List ℚ)
    (ef layer : Nat) (P : String → Prop) (hP : ∀ i, inLayerSet gmap layer i → P i) :
    ∀ (fuel : Nat) (visited : List String) (cands : List (String × ℚ)),
      (cands.map Prod.fst).Nodup →
      (∀ c ∈ cands, c.1 ∈ visited) →
      (∀ c ∈ cands, ∃ n, alGet gmap c.1 = some n) →
      (∀ c ∈ cands, P c.1) →
      (((searchLayerLoop gmap sq query ef layer fuel visited cands).map Prod.fst).Nodup ∧
        (∀ c ∈ searchLayerLoop gmap sq query ef layer fuel visited cands,
          (∃ n, alGet gmap c.1 = some n) ∧ P c.1) ∧
        (1 ≤ ef → cands ≠ [] → searchLayerLoop gmap sq query ef layer fuel visited cands ≠ [])) := by
  intro fuel
  induction fuel with
  | zero =>
    intro visited cands h1 h2 h3 h4
    rw [searchLayerLoop]
    exact ⟨h1, fun c hc => ⟨h3 c hc, h4 c hc⟩, fun _ h => h⟩
  | succ fuel ih =>
    intro visited cands h1 h2 h3 h4
    have hperm : (cands.mergeSort (fun a b => decide (a.2 ≤ b.2))).Perm cands :=
      List.mergeSort_perm cands _
    cases hsort : cands.mergeSort (fun a b => decide (a.2 ≤ b.2)) with
    | nil =>
      rw [slLoop_eq_nil gmap sq query ef layer fuel visited cands hsort]
      refine ⟨by simp, by simp, ?_⟩
      intro hef hne
      exfalso
      apply hne
      have hpn : cands.Perm [] := by
        rw [← hsort]
        exact hperm.symm
      exact hpn.eq_nil
    | cons current rest =>
      have hsQ : ∀ c ∈ current :: rest, c ∈ cands := by
        intro c hc
        apply hperm.mem_iff.1
        rw [hsort]
        exact hc
      have hs1 : ((current :: rest).map Prod.fst).Nodup := by
        rw [← hsort]
        exact ((hperm.map Prod.fst).nodup_iff).mpr h1
      have hs2 : ∀ c ∈ current :: rest, c.1 ∈ visited := fun c hc => h2 c (hsQ c hc)
      have hs3 : ∀ c ∈ current :: rest, ∃ n, alGet gmap c.1 = some n :=
        fun c hc => h3 c (hsQ c hc)
      have hs4 : ∀ c ∈ current :: rest, P c.1 := fun c hc => h4 c (hsQ c hc)
      cases hcur : alGet gmap current.1 with
      | none =>
        rw [slLoop_eq_break gmap sq query ef layer fuel visited cands current rest hsort hcur]
        exact ⟨hs1, fun c hc => ⟨hs3 c hc, hs4 c hc⟩, fun _ _ => by simp⟩
      | some currentNode =>
        rw [slLoop_eq_go gmap sq query ef layer fuel visited cands current rest currentNode
          hsort hcur]
        have hnbrP : ∀ i ∈ (alGet currentNode.neighbors layer).getD [], P i := by
          intro i hi
          apply hP
          cases halg : alGet currentNode.neighbors layer with
          | none =>
            rw [halg] at hi
            simp at hi
          | some s =>
            rw [halg] at hi
            simp only [Option.getD_some] at hi
            exact ⟨current.1, currentNode, s, hcur, halg, hi⟩
        obtain ⟨e1, e2, e3, e4, e5⟩ := expand_fold_inv gmap sq query ef
          ((alGet currentNode.neighbors layer).getD []) visited (current :: rest) false
          hs1 hs2 hs3
        have e4P : ∀ c ∈ (((alGet currentNode.neighbors layer).getD []).foldl
            (expandStep gmap sq query ef) (visited, current :: rest, false)).2.1, P c.1 := by
          intro c hc
          rcases e4 c hc with hin | hin
          · obtain ⟨c2, hc2, hf⟩ := List.mem_map.1 hin
            exact hf ▸ hs4 c2 hc2
          · exact hnbrP c.1 hin
        by_cases hch : (((alGet currentNode.neighbors layer).getD []).foldl
            (expandStep gmap sq query ef) (visited, current :: rest, false)).2.2 = true
        · rw [if_pos hch]
          obtain ⟨r1, r2, r3⟩ := ih _ _ e1 e2 e3 e4P
          exact ⟨r1, r2, fun hef _ => r3 hef (e5 hef (by simp))⟩
        · rw [if_neg hch]
          exact ⟨e1, fun c hc => ⟨e3 c hc, e4P c hc⟩, fun hef _ => e5 hef (by simp)⟩

theorem searchLayer_eq_none (gmap : List (String × HNSWNode)) (sq : ℚ → ℚ) (query : List ℚ)
    (ef layer : Nat) (entry : String) (h : alGet gmap entry = none) :
    HNSWGraph.searchLayer gmap sq query ef layer entry = [] := by
  unfold HNSWGraph.searchLayer
  rw [h]

theorem searchLayer_eq_some (gmap : List (String × HNSWNode)) (sq : ℚ → ℚ) (query : List ℚ)
    (ef layer : Nat) (entry : String) (entryNode : HNSWNode)
    (h : alGet gmap entry = some entryNode) :
    HNSWGraph.searchLayer gmap sq query ef layer entry =
      (((searchLayerLoop gmap sq query ef layer (gmap.length + 1) [entry]
          [(entry, 1 - cosineSimilarity sq query entryNode.vector)]).mergeSort
        (fun a b => decide (a.2 ≤ b.2))).take ef).map (fun c => c.1) := by
  unfold HNSWGraph.searchLayer
  rw [h]

/-- Top-level guarantees of `searchLayer`: distinct ids, all resolvable in
the node map, all either the entry id or members of some layer set, at most
`ef` results, and a non-empty result when the entry resolves and `ef ≥ 1`. -/
theorem searchLayer_spec (gmap : List (String × HNSWNode)) (sq : ℚ → ℚ) (query : List ℚ)
    (ef layer : Nat) (entry : String) :
    (HNSWGraph.searchLayer gmap sq query ef layer entry).Nodup ∧
    (∀ i ∈ HNSWGraph.searchLayer gmap sq query ef layer entry,
      (∃ n, alGet gmap i = some n) ∧ (i = entry ∨ inLayerSet gmap layer i)) ∧
    (HNSWGraph.searchLayer gmap sq query ef layer entry).length ≤ ef ∧
    (∀ n0, alGet gmap entry = some n0 → 1 ≤ ef →
      HNSWGraph.searchLayer gmap sq query ef layer entry ≠ []) := by
  cases hE : alGet gmap entry with
  | none =>
    rw [searchLayer_eq_none gmap sq query ef layer entry hE]
    refine ⟨by simp, by simp, by simp, ?_⟩
    intro n0 hn0 _
    simp [hE] at hn0
  | some entryNode =>
    rw [searchLayer_eq_some gmap sq query ef layer entry entryNode hE]
    obtain ⟨r1, r2, r3⟩ := searchLayerLoop_inv gmap sq query ef layer
      (fun i => i = entry ∨ inLayerSet gmap layer i)
      (fun i hi => Or.inr hi) (gmap.length + 1) [entry]
      [(entry, 1 - cosineSimilarity sq query entryNode.vector)]
      (by simp)
      (by intro c hc; simp at hc; simp [hc])
      (by intro c hc; simp at hc; subst hc; exact ⟨entryNode, hE⟩)
      (by intro c hc; simp at hc; subst hc; exact Or.inl rfl)
    have hoperm : ((searchLayerLoop gmap sq query ef layer (gmap.length + 1) [entry]
        [(entry, 1 - cosineSimilarity sq query entryNode.vector)]).mergeSort
        (fun a b => decide (a.2 ≤ b.2))).Perm
        (searchLayerLoop gmap sq query ef layer (gmap.length + 1) [entry]
          [(entry, 1 - cosineSimilarity sq query entryNode.vector)]) :=
      List.mergeSort_perm _ _
    refine ⟨?_, ?_, ?_, ?_⟩
    · exact nodup_map_take_mergeSort Prod.fst _ _ ef r1
    · intro i hi
      obtain ⟨c, hc, hf⟩ := List.mem_map.1 hi
      have hcm := hoperm.mem_iff.1 (List.mem_of_mem_take hc)
      obtain ⟨hl, hp⟩ := r2 c hcm
      exact hf ▸ ⟨hl, hp⟩
    · rw [List.length_map]
      exact List.length_take_le ef _
    · intro n0 hn0 hef
      have hne := r3 hef (by simp)
      have hne2 : ((searchLayerLoop gmap sq query ef layer (gmap.length + 1) [entry]
          [(entry, 1 - cosineSimilarity sq query entryNode.vector)]).mergeSort
          (fun a b => decide (a.2 ≤ b.2))).take ef ≠ [] :=
        take_ne_nil hef (perm_ne_nil hoperm.symm hne)
      intro hmap
      rw [List.map_eq_nil_iff] at hmap
      exact hne2 hmap

/-- C4: for every graph state, query vector, beam width and target level,
`search` returns pairwise-distinct ids, at most `ef` of them, every one a key
of the node map; on an empty graph it returns the empty list. -/
theorem C4_search_containment (g : HNSWGraph) (sq : ℚ → ℚ) (q : List ℚ)
    (ef targetLevel : Nat) :
    (HNSWGraph.search g sq q ef targetLevel).Nodup ∧
    (HNSWGraph.search g sq q ef targetLevel).length ≤ ef ∧
    (∀ i ∈ HNSWGraph.search g sq q ef targetLevel, i ∈ g.graph.map Prod.fst) ∧
    (g.graph = [] → HNSWGraph.search g sq q ef targetLevel = []) := by
  have hmain : ∀ (res : List String), res = HNSWGraph.search g sq q ef targetLevel →
      res.Nodup ∧ res.length ≤ ef ∧ (∀ i ∈ res, i ∈ g.graph.map Prod.fst) ∧
      (g.graph = [] → res = []) := by
    intro res hres
    unfold HNSWGraph.search at hres
    cases hE : g.entryPointId with
    | none =>
      rw [hE] at hres
      subst hres
      exact ⟨by simp, by simp, by simp, fun _ => rfl⟩
    | some e =>
      rw [hE] at hres
      simp only [] at hres
      by_cases hguard : e = "" ∨ g.graph = []
      · rw [if_pos hguard] at hres
        subst hres
        exact ⟨by simp, by simp, by simp, fun _ => rfl⟩
      · rw [if_neg hguard] at hres
        subst hres
        obtain ⟨s1, s2, s3, _⟩ := searchLayer_spec g.graph sq q ef targetLevel
          (HNSWGraph.descend g.graph sq q
            ((List.range' (targetLevel + 1) (g.maxLevel - targetLevel)).reverse) e)
        refine ⟨s1, s3, ?_, ?_⟩
        · intro i hi
          obtain ⟨⟨n, hn⟩, _⟩ := s2 i hi
          exact alGet_mem_keys hn
        · intro hnil
          exact absurd (Or.inr hnil) hguard
  exact hmain _ rfl

theorem alGet_alSet_self {κ α : Type} [DecidableEq κ] (m : List (κ × α)) (k : κ) (v : α) :
    alGet (alSet m k v) k = some v := by
  induction m with
  | nil => simp [alGet, alSet]
  | cons p rest ih =>
    rw [alSet]
    by_cases hp : p.1 = k
    · rw [if_pos hp, alGet]
      simp
    · rw [if_neg hp, alGet, if_neg hp]
      exact ih

theorem alGet_alSet_ne {κ α : Type} [DecidableEq κ] (m : List (κ × α)) (k k2 : κ) (v : α)
    (h : k2 ≠ k) : alGet (alSet m k v) k2 = alGet m k2 := by
  induction m with
  | nil =>
    rw [alSet, alGet, alGet]
    rw [if_neg (fun hk => h hk.symm)]
    rfl
  | cons p rest ih =>
    rw [alSet]
    by_cases hp : p.1 = k
    · rw [if_pos hp, alGet, alGet]
      rw [if_neg (fun hk => h hk.symm), if_neg (by rw [hp]; exact fun hk => h hk.symm)]
    · rw [if_neg hp, alGet, alGet]
      by_cases hp2 : p.1 = k2
      · rw [if_pos hp2, if_pos hp2]
      · rw [if_neg hp2, if_neg hp2]
        exact ih

theorem alGet_alSet_isSome {κ α : Type} [DecidableEq κ] (m : List (κ × α)) (k k2 : κ) (v : α)
    (h : ∃ w, alGet m k2 = some w) : ∃ w, alGet (alSet m k v) k2 = some w := by
  by_cases hk : k2 = k
  · subst hk
    exact ⟨v, alGet_alSet_self m k2 v⟩
  · rw [alGet_alSet_ne m k k2 v hk]
    exact h

theorem setAdd_ne_nil (s : List String) (x : String) : setAdd s x ≠ [] := by
  unfold setAdd
  by_cases hx : x ∈ s
  · rw [if_pos hx]
    intro hnil
    rw [hnil] at hx
    exact absurd hx (by simp)
  · rw [if_neg hx]
    simp

theorem length_setAdd_le (s : List String) (x : String) :
    (setAdd s x).length ≤ s.length + 1 := by
  unfold setAdd
  by_cases hx : x ∈ s
  · rw [if_pos hx]
    omega
  · rw [if_neg hx]
    simp

theorem foldl_setAdd_length : ∀ (sel : List String) (s0 : List String),
    (sel.foldl setAdd s0).length ≤ s0.length + sel.length := by
  intro sel
  induction sel with
  | nil => intro s0; simp
  | cons x rest ih =>
    intro s0
    rw [List.foldl_cons]
    have h1 := ih (setAdd s0 x)
    have h2 := length_setAdd_le s0 x
    simp only [List.length_cons]
    omega

theorem foldl_setAdd_ne_nil : ∀ (sel : List String) (s0 : List String),
    (s0 ≠ [] ∨ sel ≠ []) → sel.foldl setAdd s0 ≠ [] := by
  intro sel
  induction sel with
  | nil =>
    intro s0 h
    rcases h with h | h
    · exact h
    · exact absurd rfl h
  | cons x rest ih =>
    intro s0 _
    rw [List.foldl_cons]
    exact ih (setAdd s0 x) (Or.inl (setAdd_ne_nil s0 x))

theorem selectNeighbors_length (gmap : List (String × HNSWNode)) (sq : ℚ → ℚ)
    (candidates : List String) (M : Nat) (vector : List ℚ) :
    (HNSWGraph.selectNeighbors gmap sq candidates M vector).length ≤ M := by
  unfold HNSWGraph.selectNeighbors
  by_cases hc : candidates.length ≤ M
  · rw [if_pos hc]
    exact hc
  · rw [if_neg hc]
    rw [List.length_map]
    exact List.length_take_le M _

theorem selectNeighbors_ne_nil (gmap : List (String × HNSWNode)) (sq : ℚ → ℚ)
    (candidates : List String) (M : Nat) (vector : List ℚ) (hM : 1 ≤ M)
    (h : candidates ≠ []) :
    HNSWGraph.selectNeighbors gmap sq candidates M vector ≠ [] := by
  unfold HNSWGraph.selectNeighbors
  by_cases hc : candidates.length ≤ M
  · rw [if_pos hc]
    exact h
  · rw [if_neg hc]
    intro hmap
    rw [List.map_eq_nil_iff] at hmap
    have hperm := List.mergeSort_perm
      (candidates.map (fun id => (id, scoreDist gmap sq vector id))) (fun a b => optLE a.2 b.2)
    have hne : candidates.map (fun id => (id, scoreDist gmap sq vector id)) ≠ [] := by
      intro hcn
      rw [List.map_eq_nil_iff] at hcn
      exact h hcn
    exact take_ne_nil hM (perm_ne_nil hperm.symm hne) hmap

theorem selectNeighbors_mem (gmap : List (String × HNSWNode)) (sq : ℚ → ℚ)
    (candidates : List String) (M : Nat) (vector : List ℚ) :
    ∀ i ∈ HNSWGraph.selectNeighbors gmap sq candidates M vector, i ∈ candidates := by
  unfold HNSWGraph.selectNeighbors
  by_cases hc : candidates.length ≤ M
  · rw [if_pos hc]
    exact fun i hi => hi
  · rw [if_neg hc]
    intro i hi
    obtain ⟨c, hc2, hf⟩ := List.mem_map.1 hi
    have := mem_take_mergeSort hc2
    obtain ⟨j, hj, hjf⟩ := List.mem_map.1 this
    rw [← hf, ← hjf]
    exact hj

theorem linkNeighbor_nn (sq : ℚ → ℚ) (M : Nat) (id : String) (l : Nat)
    (st : List (String × HNSWNode) × List (Nat × List String)) (nid : String) :
    (linkNeighbor sq M id l st nid).2
      = alSet st.2 l (setAdd ((alGet st.2 l).getD []) nid) := by
  unfold linkNeighbor
  cases h : alGet st.1 nid with
  | none => rfl
  | some neighborNode => rfl

theorem linkNeighbor_fst_cases (sq : ℚ → ℚ) (M : Nat) (id : String) (l : Nat)
    (st : List (String × HNSWNode) × List (Nat × List String)) (nid : String) :
    (linkNeighbor sq M id l st nid).1 = st.1 ∨
    ∃ v, (linkNeighbor sq M id l st nid).1 = alSet st.1 nid v := by
  unfold linkNeighbor
  cases h : alGet st.1 nid with
  | none =>
    left
    rfl
  | some neighborNode =>
    right
    exact ⟨_, rfl⟩

/-- The new node's neighbor map evolves independently of the graph updates
during the per-neighbor linking fold. -/
theorem linkFold_nn (sq : ℚ → ℚ) (M : Nat) (id : String) (l : Nat) :
    ∀ (sel : List String) (gmap : List (String × HNSWNode)) (nn : List (Nat × List String)),
      (sel.foldl (fun st nid => linkNeighbor sq M id l st nid) (gmap, nn)).2
        = sel.foldl (fun s nid => alSet s l (setAdd ((alGet s l).getD []) nid)) nn := by
  intro sel
  induction sel with
  | nil => intro gmap nn; rfl
  | cons x rest ih =>
    intro gmap nn
    rw [List.foldl_cons, List.foldl_cons]
    have hpair : linkNeighbor sq M id l (gmap, nn) x
        = ((linkNeighbor sq M id l (gmap, nn) x).1, (linkNeighbor sq M id l (gmap, nn) x).2) :=
      rfl
    rw [hpair, linkNeighbor_nn sq M id l (gmap, nn) x]
    exact ih _ _

/-- Graph updates during the linking fold never remove a key, so every id
resolvable before the fold is resolvable after it. -/
theorem linkFold_resolvable (sq : ℚ → ℚ) (M : Nat) (id : String) (l : Nat) :
    ∀ (sel : List String) (gmap : List (String × HNSWNode)) (nn : List (Nat × List String))
      (k : String), (∃ n, alGet gmap k = some n) →
      ∃ n, alGet (sel.foldl (fun st nid => linkNeighbor sq M id l st nid) (gmap, nn)).1 k
        = some n := by
  intro sel
  induction sel with
  | nil => intro gmap nn k h; exact h
  | cons x rest ih =>
    intro gmap nn k h
    rw [List.foldl_cons]
    have hpair : linkNeighbor sq M id l (gmap, nn) x
        = ((linkNeighbor sq M id l (gmap, nn) x).1, (linkNeighbor sq M id l (gmap, nn) x).2) :=
      rfl
    rw [hpair]
    apply ih
    rcases linkNeighbor_fst_cases sq M id l (gmap, nn) x with hsame | ⟨v, hset⟩
    · rw [hsame]
      exact h
    · rw [hset]
      exact alGet_alSet_isSome _ _ _ _ h

/-- Effect of the nn-side fold on the layer being linked. -/
theorem nnFold_at_layer (l : Nat) :
    ∀ (sel : List String) (nn : List (Nat × List String)) (s0 : List String),
      alGet nn l = some s0 →
      alGet (sel.foldl (fun s nid => alSet s l (setAdd ((alGet s l).getD []) nid)) nn) l
        = some (sel.foldl setAdd s0) := by
  intro sel
  induction sel with
  | nil => intro nn s0 h; exact h
  | cons x rest ih =>
    intro nn s0 h
    rw [List.foldl_cons, List.foldl_cons]
    apply ih
    rw [h]
    simp only [Option.getD_some]
    exact alGet_alSet_self nn l (setAdd s0 x)

/-- The nn-side fold leaves all other layers untouched. -/
theorem nnFold_other_layer (l l2 : Nat) (hne : l2 ≠ l) :
    ∀ (sel : List String) (nn : List (Nat × List String)),
      alGet (sel.foldl (fun s nid => alSet s l (setAdd ((alGet s l).getD []) nid)) nn) l2
        = alGet nn l2 := by
  intro sel
  induction sel with
  | nil => intro nn; rfl
  | cons x rest ih =>
    intro nn
    rw [List.foldl_cons, ih]
    exact alGet_alSet_ne nn l l2 _ hne

theorem headOr_resolvable (gmap : List (String × HNSWNode)) (l : List String) (d : String)
    (hl : ∀ i ∈ l, ∃ n, alGet gmap i = some n) (hd : ∃ n, alGet gmap d = some n) :
    ∃ n, alGet gmap (headOr l d) = some n := by
  cases l with
  | nil => exact hd
  | cons c cs => exact hl c (List.mem_cons_self c cs)

theorem descend_resolvable (gmap : List (String × HNSWNode)) (sq : ℚ → ℚ) (query : List ℚ) :
    ∀ (layers : List Nat) (cur : String), (∃ n, alGet gmap cur = some n) →
      ∃ n, alGet gmap (HNSWGraph.descend gmap sq query layers cur) = some n := by
  intro layers
  induction layers with
  | nil => intro cur h; exact h
  | cons l rest ih =>
    intro cur h
    have hfold : HNSWGraph.descend gmap sq query (l :: rest) cur
        = HNSWGraph.descend gmap sq query rest (descendStep gmap sq query cur l) := by
      unfold HNSWGraph.descend
      rw [List.foldl_cons]
    rw [hfold]
    apply ih
    unfold descendStep
    apply headOr_resolvable gmap _ cur _ h
    intro i hi
    exact ((searchLayer_spec gmap sq query 1 l cur).2.1 i hi).1

/-- During the linking loop, every layer in the (duplicate-free) work list
receives a non-empty neighbor set of size at most M on the new node, and
layers outside the work list keep their previous sets, provided the moving
entry resolves and every work-list layer starts with a registered empty
set. -/
theorem linkLayers_good (sq : ℚ → ℚ) (M efC : Nat) (hM : 1 ≤ M) (hEf : 1 ≤ efC)
    (id : String) (vector : List ℚ) :
    ∀ (layers : List Nat) (gmap : List (String × HNSWNode)) (nn : List (Nat × List String))
      (cur : String),
      layers.Nodup →
      (∃ n, alGet gmap cur = some n) →
      (∀ l ∈ layers, alGet nn l = some []) →
      ((∀ l ∈ layers, ∃ s, alGet (linkLayers sq M efC id vector layers (gmap, nn, cur)).2.1 l
          = some s ∧ s ≠ [] ∧ s.length ≤ M) ∧
        (∀ l2, l2 ∉ layers →
          alGet (linkLayers sq M efC id vector layers (gmap, nn, cur)).2.1 l2 = alGet nn l2)) := by
  intro layers
  induction layers with
  | nil =>
    intro gmap nn cur _ _ _
    rw [linkLayers]
    exact ⟨by simp, fun l2 _ => rfl⟩
  | cons l rest ih =>
    intro gmap nn cur hnd hcur hinit
    have hlnotin : l ∉ rest := (List.nodup_cons.1 hnd).1
    have hndr : rest.Nodup := (List.nodup_cons.1 hnd).2
    simp only [linkLayers]
    set cands := HNSWGraph.searchLayer gmap sq vector efC l cur with hcands
    set sel := HNSWGraph.selectNeighbors gmap sq cands M vector with hsel
    set stG := sel.foldl (fun st nid => linkNeighbor sq M id l st nid) (gmap, nn) with hstG
    set cur2 := headOr cands cur with hcur2
    have hcur2R : ∃ n, alGet gmap cur2 = some n := by
      rw [hcur2]
      apply headOr_resolvable gmap _ cur _ hcur
      intro i hi
      exact ((searchLayer_spec gmap sq vector efC l cur).2.1 i hi).1
    have hcurG : ∃ n, alGet stG.1 cur2 = some n := by
      rw [hstG]
      have hpair : (gmap, nn) = ((gmap, nn).1, (gmap, nn).2) := rfl
      exact linkFold_resolvable sq M id l sel gmap nn cur2 hcur2R
    have hcands_ne : cands ≠ [] := by
      obtain ⟨n0, hn0⟩ := hcur
      exact (searchLayer_spec gmap sq vector efC l cur).2.2.2 n0 hn0 hEf
    have hsel_ne : sel ≠ [] := selectNeighbors_ne_nil gmap sq cands M vector hM hcands_ne
    have hsel_len : sel.length ≤ M := selectNeighbors_length gmap sq cands M vector
    have hnnG : stG.2 = sel.foldl (fun s nid => alSet s l (setAdd ((alGet s l).getD []) nid)) nn :=
      linkFold_nn sq M id l sel gmap nn
    have hatl : alGet stG.2 l = some (sel.foldl setAdd []) := by
      rw [hnnG]
      exact nnFold_at_layer l sel nn [] (hinit l (List.mem_cons_self l rest))
    have hother : ∀ l2, l2 ≠ l → alGet stG.2 l2 = alGet nn l2 := by
      intro l2 hl2
      rw [hnnG]
      exact nnFold_other_layer l l2 hl2 sel nn
    have hinit2 : ∀ lp ∈ rest, alGet stG.2 lp = some [] := by
      intro lp hlp
      have hlpne : lp ≠ l := fun he => hlnotin (he ▸ hlp)
      rw [hother lp hlpne]
      exact hinit lp (List.mem_cons_of_mem l hlp)
    obtain ⟨ih1, ih2⟩ := ih stG.1 stG.2 cur2 hndr hcurG hinit2
    constructor
    · intro lp hlp
      rcases List.mem_cons.1 hlp with he | hm
      · subst he
        refine ⟨sel.foldl setAdd [], ?_, ?_, ?_⟩
        · rw [ih2 lp hlnotin]
          exact hatl
        · exact foldl_setAdd_ne_nil sel [] (Or.inr hsel_ne)
        · have := foldl_setAdd_length sel []
          simp only [List.length_nil] at this
          omega
      · exact ih1 lp hm
    · intro l2 hl2
      have hl2r : l2 ∉ rest := fun hm => hl2 (List.mem_cons_of_mem l hm)
      have hl2l : l2 ≠ l := fun he => hl2 (he ▸ List.mem_cons_self l rest)
      rw [ih2 l2 hl2r]
      exact hother l2 hl2l

theorem alGet_append {κ α : Type} [DecidableEq κ] (m1 m2 : List (κ × α)) (k : κ) :
    alGet (m1 ++ m2) k
      = match alGet m1 k with
        | some v => some v
        | none => alGet m2 k := by
  induction m1 with
  | nil => rw [List.nil_append]; rfl
  | cons p rest ih =>
    rw [List.cons_append, alGet, alGet]
    by_cases hp : p.1 = k
    · rw [if_pos hp, if_pos hp]
    · rw [if_neg hp, if_neg hp]
      exact ih

theorem alGet_map_range {α : Type} (f : Nat → α) (n l : Nat) :
    alGet ((List.range n).map (fun i => (i, f i))) l
      = if l < n then some (f l) else none := by
  induction n with
  | zero => simp [alGet]
  | succ n ih =>
    rw [List.range_succ, List.map_append, alGet_append, ih]
    by_cases h : l < n
    · rw [if_pos h, if_pos (by omega)]
    · rw [if_neg h]
      by_cases h2 : l = n
      · subst h2
        simp [alGet]
      · rw [if_neg (by omega)]
        simp only [List.map_cons, List.map_nil, alGet]
        rw [if_neg (fun he => h2 he.symm)]

theorem insert_eq_entry_none (g : HNSWGraph) (sq : ℚ → ℚ) (id : String) (vector : List ℚ)
    (level : Nat) (hE : g.entryPointId = none) :
    g.insert sq id vector level =
      { g with
        graph := alSet g.graph id
          (HNSWNode.mk id vector level
            ((List.range (level + 1)).map (fun l => (l, ([] : List String))))),
        entryPointId := some id,
        maxLevel := level } := by
  unfold HNSWGraph.insert
  simp only [hE]

theorem insert_eq_empty_graph (g : HNSWGraph) (sq : ℚ → ℚ) (id : String) (vector : List ℚ)
    (level : Nat) (e0 : String) (hE : g.entryPointId = some e0) (hnil : g.graph = []) :
    g.insert sq id vector level =
      { g with
        graph := alSet g.graph id
          (HNSWNode.mk id vector level
            ((List.range (level + 1)).map (fun l => (l, ([] : List String))))),
        entryPointId := some id,
        maxLevel := level } := by
  unfold HNSWGraph.insert
  simp only [hE]
  rw [if_pos hnil]

theorem insert_eq_main (g : HNSWGraph) (sq : ℚ → ℚ) (id : String) (vector : List ℚ)
    (level : Nat) (e0 : String) (hE : g.entryPointId = some e0) (hne : ¬ g.graph = [])
    (st : List (String × HNSWNode) × List (Nat × List String) × String)
    (hst : st = linkLayers sq g.M g.efConstruction id vector
      ((List.range (level + 1)).reverse)
      (g.graph, (List.range (level + 1)).map (fun l => (l, ([] : List String))),
        HNSWGraph.descend g.graph sq vector
          ((List.range' (level + 1)
            ((if g.maxLevel < level then level else g.maxLevel) - level)).reverse)
          (if g.maxLevel < level then id else e0))) :
    g.insert sq id vector level =
      { g with
        graph := alSet st.1 id (HNSWNode.mk id vector level st.2.1),
        maxLevel := if g.maxLevel < level then level else g.maxLevel,
        entryPointId := some (if g.maxLevel < level then id else e0) } := by
  subst hst
  unfold HNSWGraph.insert
  simp only [hE]
  rw [if_neg hne]

/-- Counterexample to C1 as stated: inserting "b" with drawn level 1 into the
non-empty one-node graph holding "a" (current max layer 0) promotes "b" to
global entry point before it is committed to the node map, so every per-layer
beam search starts from the still-missing id "b" and returns no candidates:
the node inserted into a non-empty graph ends up with empty neighbor sets at
both of its layers 0 and 1, not "at least one neighbor at every layer". -/
theorem C1_counterexample :
    ((HNSWGraph.mkEmpty 16 200).insert (fun x => x) "a" [1] 0).graph ≠ [] ∧
    alGet (((HNSWGraph.mkEmpty 16 200).insert (fun x => x) "a" [1] 0).insert
        (fun x => x) "b" [1] 1).graph "b"
      = some (HNSWNode.mk "b" [1] 1 [(0, []), (1, [])]) := by
  constructor
  · decide
  · decide

/-- C1 (amended): on a non-empty graph whose entry point resolves, whenever
the drawn level does not exceed the current maximum layer and `M ≥ 1`,
`efConstruction ≥ 1`, insertion runs the per-layer beam search / neighbor
selection / bidirectional linking pass, and the committed node carries, at
every layer 0..level, a neighbor set that is non-empty and holds at most `M`
ids. (When the drawn level exceeds the current maximum layer the node instead
becomes the new entry point with empty neighbor sets, see the
counterexample.) -/
theorem C1_insert_links (g : HNSWGraph) (sq : ℚ → ℚ) (id : String) (vector : List ℚ)
    (level : Nat) (e : String) (eNode : HNSWNode)
    (hE : g.entryPointId = some e) (heN : alGet g.graph e = some eNode)
    (hM : 1 ≤ g.M) (hEf : 1 ≤ g.efConstruction) (hlev : level ≤ g.maxLevel) :
    ∃ n, alGet (g.insert sq id vector level).graph id = some n ∧ n.level = level ∧
      ∀ l, l ≤ level → ∃ s, alGet n.neighbors l = some s ∧ s ≠ [] ∧ s.length ≤ g.M := by
  have hne : ¬ g.graph = [] := by
    intro h0
    rw [h0] at heN
    simp [alGet] at heN
  obtain ⟨st, hst⟩ : ∃ st, st = linkLayers sq g.M g.efConstruction id vector
      ((List.range (level + 1)).reverse)
      (g.graph, (List.range (level + 1)).map (fun l => (l, ([] : List String))),
        HNSWGraph.descend g.graph sq vector
          ((List.range' (level + 1)
            ((if g.maxLevel < level then level else g.maxLevel) - level)).reverse)
          (if g.maxLevel < level then id else e)) := ⟨_, rfl⟩
  rw [insert_eq_main g sq id vector level e hE hne st hst]
  rw [if_neg (by omega), if_neg (by omega)] at hst
  have hcur : ∃ n, alGet g.graph
      (HNSWGraph.descend g.graph sq vector
        ((List.range' (level + 1) (g.maxLevel - level)).reverse) e) = some n :=
    descend_resolvable g.graph sq vector _ e ⟨eNode, heN⟩
  have hinit : ∀ l ∈ (List.range (level + 1)).reverse,
      alGet ((List.range (level + 1)).map (fun i => (i, ([] : List String)))) l = some [] := by
    intro l hl
    rw [List.mem_reverse, List.mem_range] at hl
    rw [alGet_map_range (fun _ => ([] : List String)) (level + 1) l, if_pos hl]
  obtain ⟨good, _⟩ := linkLayers_good sq g.M g.efConstruction hM hEf id vector
    ((List.range (level + 1)).reverse) g.graph
    ((List.range (level + 1)).map (fun i => (i, ([] : List String)))) _
    (List.nodup_reverse.mpr (List.nodup_range _)) hcur hinit
  refine ⟨HNSWNode.mk id vector level st.2.1, ?_, rfl, ?_⟩
  · exact alGet_alSet_self st.1 id _
  · intro l hl
    have hmem : l ∈ (List.range (level + 1)).reverse := by
      rw [List.mem_reverse, List.mem_range]
      omega
    have := good l hmem
    rw [← hst] at this
    exact this

/-- Witness for the amended C1 at a concrete input: graph with single node
"a" at level 0, inserting "b" at level 0 (within the current max layer). -/
theorem C1_witness :
    (((HNSWGraph.mkEmpty 16 200).insert (fun x => x) "a" [1] 0).entryPointId = some "a" ∧
      alGet ((HNSWGraph.mkEmpty 16 200).insert (fun x => x) "a" [1] 0).graph "a"
        = some (HNSWNode.mk "a" [1] 0 [(0, [])])) ∧
    (∃ n, alGet (((HNSWGraph.mkEmpty 16 200).insert (fun x => x) "a" [1] 0).insert
        (fun x => x) "b" [1] 0).graph "b" = some n ∧ n.level = 0 ∧
      ∀ l, l ≤ 0 → ∃ s, alGet n.neighbors l = some s ∧ s ≠ [] ∧
        s.length ≤ ((HNSWGraph.mkEmpty 16 200).insert (fun x => x) "a" [1] 0).M) :=
  ⟨⟨by decide, by decide⟩,
    C1_insert_links ((HNSWGraph.mkEmpty 16 200).insert (fun x => x) "a" [1] 0)
      (fun x => x) "b" [1] 0 "a" (HNSWNode.mk "a" [1] 0 [(0, [])])
      (by decide) (by decide) (by decide) (by decide) (by decide)⟩

theorem mem_alSet {κ α : Type} [DecidableEq κ] {k : κ} {v : α} {p : κ × α} :
    ∀ {m : List (κ × α)}, p ∈ alSet m k v → p = (k, v) ∨ p ∈ m := by
  intro m
  induction m with
  | nil =>
    intro h
    rw [alSet] at h
    simp at h
    exact Or.inl h
  | cons q rest ih =>
    intro h
    rw [alSet] at h
    by_cases hq : q.1 = k
    · rw [if_pos hq] at h
      rcases List.mem_cons.1 h with he | hm
      · exact Or.inl he
      · exact Or.inr (List.mem_cons_of_mem _ hm)
    · rw [if_neg hq] at h
      rcases List.mem_cons.1 h with he | hm
      · exact Or.inr (he ▸ List.mem_cons_self _ _)
      · rcases ih hm with h1 | h2
        · exact Or.inl h1
        · exact Or.inr (List.mem_cons_of_mem _ h2)

theorem keys_alSet_of_mem {κ α : Type} [DecidableEq κ] {m : List (κ × α)} {k : κ} (v : α)
    (h : k ∈ m.map Prod.fst) : (alSet m k v).map Prod.fst = m.map Prod.fst := by
  induction m with
  | nil => simp at h
  | cons q rest ih =>
    rw [alSet]
    by_cases hq : q.1 = k
    · rw [if_pos hq]
      simp only [List.map_cons]
      rw [hq]
    · rw [if_neg hq]
      simp only [List.map_cons] at h ⊢
      rcases List.mem_cons.1 h with he | hm
      · exact absurd he.symm hq
      · rw [ih hm]

theorem keys_alSet_of_not_mem {κ α : Type} [DecidableEq κ] {m : List (κ × α)} {k : κ} (v : α)
    (h : k ∉ m.map Prod.fst) : (alSet m k v).map Prod.fst = m.map Prod.fst ++ [k] := by
  induction m with
  | nil => simp [alSet]
  | cons q rest ih =>
    rw [alSet]
    by_cases hq : q.1 = k
    · exact absurd (by rw [← hq]; exact List.mem_map_of_mem Prod.fst (List.mem_cons_self q rest)) h
    · rw [if_neg hq]
      simp only [List.map_cons, List.cons_append]
      rw [ih (fun hm => h (List.mem_cons_of_mem _ hm))]

theorem alSet_ne_nil {κ α : Type} [DecidableEq κ] (m : List (κ × α)) (k : κ) (v : α) :
    alSet m k v ≠ [] := by
  cases m with
  | nil => simp [alSet]
  | cons q rest =>
    rw [alSet]
    by_cases hq : q.1 = k
    · rw [if_pos hq]
      simp
    · rw [if_neg hq]
      simp

theorem alGet_isSome_of_key {κ α : Type} [DecidableEq κ] {m : List (κ × α)} {k : κ}
    (h : k ∈ m.map Prod.fst) : ∃ v, alGet m k = some v := by
  induction m with
  | nil => simp at h
  | cons q rest ih =>
    rw [alGet]
    by_cases hq : q.1 = k
    · rw [if_pos hq]
      exact ⟨q.2, rfl⟩
    · rw [if_neg hq]
      apply ih
      simp only [List.map_cons] at h
      rcases List.mem_cons.1 h with he | hm
      · exact absurd he.symm hq
      · exact hm

theorem mem_iff_alGet {κ α : Type} [DecidableEq κ] {m : List (κ × α)}
    (hnd : (m.map Prod.fst).Nodup) (k : κ) (v : α) : (k, v) ∈ m ↔ alGet m k = some v := by
  constructor
  · intro hm
    induction m with
    | nil => simp at hm
    | cons q rest ih =>
      rw [alGet]
      rcases List.mem_cons.1 hm with he | hmem
      · rw [← he]
        simp
      · have hnd2 : (q.1 :: rest.map Prod.fst).Nodup := by
          rw [List.map_cons] at hnd
          exact hnd
        have hknd := List.nodup_cons.1 hnd2
        have hkne : ¬ q.1 = k := by
          intro he2
          exact hknd.1 (he2 ▸ (List.mem_map_of_mem Prod.fst hmem))
        rw [if_neg hkne]
        exact ih hknd.2 hmem
  · exact alGet_mem

theorem mem_foldl_setAdd : ∀ (sel : List String) (s0 : List String) (x : String),
    x ∈ sel.foldl setAdd s0 → x ∈ s0 ∨ x ∈ sel := by
  intro sel
  induction sel with
  | nil => intro s0 x h; exact Or.inl h
  | cons y rest ih =>
    intro s0 x h
    rw [List.foldl_cons] at h
    rcases ih (setAdd s0 y) x h with h1 | h2
    · unfold setAdd at h1
      by_cases hy : y ∈ s0
      · rw [if_pos hy] at h1
        exact Or.inl h1
      · rw [if_neg hy] at h1
        rcases List.mem_append.1 h1 with ha | hb
        · exact Or.inl ha
        · simp at hb
          exact Or.inr (hb ▸ List.mem_cons_self _ _)
    · exact Or.inr (List.mem_cons_of_mem _ h2)

theorem nnFold_keys (l : Nat) :
    ∀ (sel : List String) (nn : List (Nat × List String)), l ∈ nn.map Prod.fst →
      (sel.foldl (fun s nid => alSet s l (setAdd ((alGet s l).getD []) nid)) nn).map Prod.fst
        = nn.map Prod.fst := by
  intro sel
  induction sel with
  | nil => intro nn _; rfl
  | cons x rest ih =>
    intro nn hl
    rw [List.foldl_cons]
    rw [ih _ (by rw [keys_alSet_of_mem _ hl]; exact hl)]
    exact keys_alSet_of_mem _ hl

theorem le_foldr_max : ∀ (l : List Nat) (x : Nat), x ∈ l → x ≤ l.foldr max 0 := by
  intro l
  induction l with
  | nil => intro x h; simp at h
  | cons y rest ih =>
    intro x h
    rw [List.foldr_cons]
    rcases List.mem_cons.1 h with he | hm
    · subst he
      exact Nat.le_max_left _ _
    · exact le_trans (ih x hm) (Nat.le_max_right _ _)

theorem foldr_max_le : ∀ (l : List Nat) (b : Nat), (∀ x ∈ l, x ≤ b) → l.foldr max 0 ≤ b := by
  intro l
  induction l with
  | nil => intro b _; simp
  | cons y rest ih =>
    intro b h
    rw [List.foldr_cons]
    apply Nat.max_le.mpr
    exact ⟨h y (List.mem_cons_self _ _), ih b (fun x hx => h x (List.mem_cons_of_mem _ hx))⟩

theorem members_inLayerSet (gmap : List (String × HNSWNode))
    (hW3 : ∀ p ∈ gmap, ∀ e ∈ p.2.neighbors, ∀ nid ∈ e.2,
      ∃ m, alGet gmap nid = some m ∧ e.1 ≤ m.level) :
    ∀ l i, inLayerSet gmap l i → ∃ m, alGet gmap i = some m ∧ l ≤ m.level := by
  intro l i hi
  obtain ⟨k, n, s, hk, hs, hmem⟩ := hi
  exact hW3 (k, n) (alGet_mem hk) (l, s) (alGet_mem hs) i hmem

theorem trimNeighbors_id_vector_level (gmap : List (String × HNSWNode)) (sq : ℚ → ℚ)
    (node : HNSWNode) (layer M : Nat) :
    (HNSWGraph.trimNeighbors gmap sq node layer M).id = node.id ∧
    (HNSWGraph.trimNeighbors gmap sq node layer M).vector = node.vector ∧
    (HNSWGraph.trimNeighbors gmap sq node layer M).level = node.level := by
  unfold HNSWGraph.trimNeighbors
  cases h : alGet node.neighbors layer with
  | none => exact ⟨rfl, rfl, rfl⟩
  | some s =>
    by_cases hs : s.length ≤ M
    · simp only [if_pos hs]
      exact ⟨trivial, trivial, trivial⟩
    · simp only [if_neg hs]
      exact ⟨trivial, trivial, trivial⟩

theorem trimNeighbors_keys (gmap : List (String × HNSWNode)) (sq : ℚ → ℚ)
    (node : HNSWNode) (layer M : Nat) :
    (HNSWGraph.trimNeighbors gmap sq node layer M).neighbors.map Prod.fst
      = node.neighbors.map Prod.fst := by
  unfold HNSWGraph.trimNeighbors
  cases h : alGet node.neighbors layer with
  | none => rfl
  | some s =>
    by_cases hs : s.length ≤ M
    · simp only [if_pos hs]
    · simp only [if_neg hs]
      exact keys_alSet_of_mem _ (alGet_mem_keys h)

theorem trimNeighbors_entries (gmap : List (String × HNSWNode)) (sq : ℚ → ℚ)
    (node : HNSWNode) (layer M : Nat) :
    ∀ e ∈ (HNSWGraph.trimNeighbors gmap sq node layer M).neighbors,
      e ∈ node.neighbors ∨
      ∃ s, alGet node.neighbors layer = some s ∧ e.1 = layer ∧
        e.2.length ≤ M ∧ (∀ x ∈ e.2, x ∈ s) := by
  unfold HNSWGraph.trimNeighbors
  cases h : alGet node.neighbors layer with
  | none => exact fun e he => Or.inl he
  | some s =>
    by_cases hs : s.length ≤ M
    · simp only [if_pos hs]
      exact fun e he => Or.inl he
    · simp only [if_neg hs]
      intro e he
      rcases mem_alSet he with he2 | he2
      · right
        refine ⟨s, rfl, by rw [he2], ?_, ?_⟩
        · rw [he2]
          simp only [List.length_map]
          exact List.length_take_le M _
        · intro x hx
          rw [he2] at hx
          simp only [] at hx
          obtain ⟨c, hc, hf⟩ := List.mem_map.1 hx
          have := mem_take_mergeSort hc
          obtain ⟨j, hj, hjf⟩ := List.mem_map.1 this
          rw [← hf, ← hjf]
          exact hj
      · exact Or.inl he2

theorem MidWF_resolveUp {M : Nat} {g0 : List (String × HNSWNode)} {id : String} {level : Nat}
    {gmap : List (String × HNSWNode)} (hmw : MidWF M g0 id level gmap) (x : String) (l : Nat)
    (h : ∃ m0, alGet g0 x = some m0 ∧ l ≤ m0.level) :
    ∃ m, alGet gmap x = some m ∧ l ≤ m.level := by
  obtain ⟨m0, hm0, hl0⟩ := h
  have hle := hmw.levelsEq x
  rw [hm0] at hle
  cases halg : alGet gmap x with
  | none =>
    rw [halg] at hle
    simp at hle
  | some m =>
    rw [halg] at hle
    have hle2 : m.level = m0.level := by simpa using hle
    exact ⟨m, rfl, by omega⟩

theorem MidWF_resolveDown {M : Nat} {g0 : List (String × HNSWNode)} {id : String} {level : Nat}
    {gmap : List (String × HNSWNode)} (hmw : MidWF M g0 id level gmap) (x : String) (l : Nat)
    (h : ∃ m, alGet gmap x = some m ∧ l ≤ m.level) :
    ∃ m0, alGet g0 x = some m0 ∧ l ≤ m0.level := by
  obtain ⟨m, hm, hl0⟩ := h
  have hle := hmw.levelsEq x
  rw [hm] at hle
  cases halg : alGet g0 x with
  | none =>
    rw [halg] at hle
    simp at hle
  | some m0 =>
    rw [halg] at hle
    have hle2 : m.level = m0.level := by simpa using hle
    exact ⟨m0, rfl, by omega⟩

theorem trimNeighbors_alGet_at (gmap : List (String × HNSWNode)) (sq : ℚ → ℚ)
    (node : HNSWNode) (layer M : Nat) (s : List String)
    (h : alGet node.neighbors layer = some s) :
    ∃ s2, alGet (HNSWGraph.trimNeighbors gmap sq node layer M).neighbors layer = some s2 ∧
      s2.length ≤ M ∧ ∀ x ∈ s2, x ∈ s := by
  unfold HNSWGraph.trimNeighbors
  simp only [h]
  by_cases hs : s.length ≤ M
  · simp only [if_pos hs]
    exact ⟨s, h, hs, fun x hx => hx⟩
  · simp only [if_neg hs]
    refine ⟨_, alGet_alSet_self node.neighbors layer _, ?_, ?_⟩
    · simp only [List.length_map]
      exact List.length_take_le M _
    · intro x hx
      obtain ⟨c, hc, hf⟩ := List.mem_map.1 hx
      have := mem_take_mergeSort hc
      obtain ⟨j, hj, hjf⟩ := List.mem_map.1 this
      rw [← hf, ← hjf]
      exact hj

theorem trimNeighbors_alGet_other (gmap : List (String × HNSWNode)) (sq : ℚ → ℚ)
    (node : HNSWNode) (layer M : Nat) (l2 : Nat) (hne : l2 ≠ layer) :
    alGet (HNSWGraph.trimNeighbors gmap sq node layer M).neighbors l2
      = alGet node.neighbors l2 := by
  unfold HNSWGraph.trimNeighbors
  cases h : alGet node.neighbors layer with
  | none => rfl
  | some s =>
    by_cases hs : s.length ≤ M
    · simp only [if_pos hs]
    · simp only [if_neg hs]
      exact alGet_alSet_ne _ _ _ _ hne

theorem node_entry_alGet (v : HNSWNode)
    (hkeys : v.neighbors.map Prod.fst = List.range (v.level + 1)) :
    ∀ e ∈ v.neighbors, alGet v.neighbors e.1 = some e.2 := by
  intro e he
  have hnd : (v.neighbors.map Prod.fst).Nodup := by
    rw [hkeys]
    exact List.nodup_range _
  exact (mem_iff_alGet hnd e.1 e.2).1 he

theorem mem_setAdd {s : List String} {x y : String} (h : y ∈ setAdd s x) : y ∈ s ∨ y = x := by
  unfold setAdd at h
  by_cases hx : x ∈ s
  · rw [if_pos hx] at h
    exact Or.inl h
  · rw [if_neg hx] at h
    rcases List.mem_append.1 h with ha | hb
    · exact Or.inl ha
    · simp at hb
      exact Or.inr hb

/-- One linking step preserves the mid-insertion invariant when the selected
neighbor resolves at a sufficient level (so the defensive re-registration
branch for a missing layer entry is never taken). -/
theorem linkNeighbor_MidWF (M : Nat) (g0 : List (String × HNSWNode)) (sq : ℚ → ℚ)
    (id : String) (level : Nat) (l : Nat) (hl : l ≤ level)
    (gmap : List (String × HNSWNode)) (nn : List (Nat × List String))
    (hmw : MidWF M g0 id level gmap)
    (nid : String) (hnid : ∃ m, alGet gmap nid = some m ∧ l ≤ m.level) :
    MidWF M g0 id level (linkNeighbor sq M id l (gmap, nn) nid).1 := by
  obtain ⟨m, hm, hml⟩ := hnid
  have hmMem : (nid, m) ∈ gmap := alGet_mem hm
  have hkeysm : m.neighbors.map Prod.fst = List.range (m.level + 1) :=
    hmw.layerKeys (nid, m) hmMem
  have hlkey : l ∈ m.neighbors.map Prod.fst := by
    rw [hkeysm, List.mem_range]
    omega
  obtain ⟨s0, hs0⟩ := alGet_isSome_of_key hlkey
  have hs0mem : (l, s0) ∈ m.neighbors := alGet_mem hs0
  have hfst : (linkNeighbor sq M id l (gmap, nn) nid).1
      = alSet gmap nid (HNSWGraph.trimNeighbors gmap sq
          (HNSWNode.mk m.id m.vector m.level (alSet m.neighbors l (setAdd s0 id))) l M) := by
    unfold linkNeighbor
    simp [hm, hs0]
  rw [hfst]
  have hn2level : (HNSWGraph.trimNeighbors gmap sq
      (HNSWNode.mk m.id m.vector m.level (alSet m.neighbors l (setAdd s0 id))) l M).level
      = m.level :=
    (trimNeighbors_id_vector_level gmap sq _ l M).2.2
  have hn1keys : (alSet m.neighbors l (setAdd s0 id)).map Prod.fst
      = List.range (m.level + 1) := by
    rw [keys_alSet_of_mem _ hlkey]
    exact hkeysm
  have hn2keys : (HNSWGraph.trimNeighbors gmap sq
      (HNSWNode.mk m.id m.vector m.level (alSet m.neighbors l (setAdd s0 id))) l M).neighbors.map
        Prod.fst
      = List.range ((HNSWGraph.trimNeighbors gmap sq
          (HNSWNode.mk m.id m.vector m.level (alSet m.neighbors l (setAdd s0 id))) l M).level
          + 1) := by
    rw [trimNeighbors_keys, hn2level]
    exact hn1keys
  have hlevGet : ∀ k, (alGet (alSet gmap nid (HNSWGraph.trimNeighbors gmap sq
      (HNSWNode.mk m.id m.vector m.level (alSet m.neighbors l (setAdd s0 id))) l M)) k).map
        (fun n => n.level)
      = (alGet gmap k).map (fun n => n.level) := by
    intro k
    by_cases hk : k = nid
    · subst hk
      rw [alGet_alSet_self, hm]
      simp [hn2level]
    · rw [alGet_alSet_ne _ _ _ _ hk]
  have hTransfer : ∀ (x : String) (bnd : Nat),
      (∃ mx, alGet gmap x = some mx ∧ bnd ≤ mx.level) →
      ∃ mx, alGet (alSet gmap nid (HNSWGraph.trimNeighbors gmap sq
        (HNSWNode.mk m.id m.vector m.level (alSet m.neighbors l (setAdd s0 id))) l M)) x
          = some mx ∧ bnd ≤ mx.level := by
    intro x bnd hx
    obtain ⟨mx, hmx, hb⟩ := hx
    have hlx := hlevGet x
    rw [hmx] at hlx
    cases h2 : alGet (alSet gmap nid (HNSWGraph.trimNeighbors gmap sq
        (HNSWNode.mk m.id m.vector m.level (alSet m.neighbors l (setAdd s0 id))) l M)) x with
    | none =>
      rw [h2] at hlx
      simp at hlx
    | some my =>
      rw [h2] at hlx
      have : my.level = mx.level := by simpa using hlx
      exact ⟨my, rfl, by omega⟩
  have hn1AtL : alGet (HNSWNode.mk m.id m.vector m.level
      (alSet m.neighbors l (setAdd s0 id))).neighbors l = some (setAdd s0 id) :=
    alGet_alSet_self m.neighbors l _
  obtain ⟨s2, hs2get, hs2len, hs2sub⟩ :=
    trimNeighbors_alGet_at gmap sq
      (HNSWNode.mk m.id m.vector m.level (alSet m.neighbors l (setAdd s0 id))) l M _ hn1AtL
  have hn2Other : ∀ l2, l2 ≠ l → alGet (HNSWGraph.trimNeighbors gmap sq
      (HNSWNode.mk m.id m.vector m.level (alSet m.neighbors l (setAdd s0 id))) l M).neighbors l2
      = alGet m.neighbors l2 := by
    intro l2 hne
    rw [trimNeighbors_alGet_other gmap sq _ l M l2 hne]
    exact alGet_alSet_ne m.neighbors l l2 _ hne
  refine ⟨?_, ?_, ?_, ?_, ?_⟩
  · rw [keys_alSet_of_mem _ (alGet_mem_keys hm)]
    exact hmw.keys
  · intro k
    rw [hlevGet k]
    exact hmw.levelsEq k
  · intro p hp
    rcases mem_alSet hp with he | hold
    · rw [he]
      exact hn2keys
    · exact hmw.layerKeys p hold
  · intro p hp e he
    rcases mem_alSet hp with hee | hold
    · subst hee
      have hget := node_entry_alGet _ hn2keys e he
      by_cases hel : e.1 = l
      · rw [hel, hs2get] at hget
        injection hget with hget2
        rw [hget2] at hs2len
        exact hs2len
      · rw [hn2Other e.1 hel] at hget
        exact hmw.sizes (nid, m) hmMem (e.1, e.2) (alGet_mem hget)
    · exact hmw.sizes p hold e he
  · intro p hp e he x hx
    rcases mem_alSet hp with hee | hold
    · subst hee
      have hget := node_entry_alGet _ hn2keys e he
      by_cases hel : e.1 = l
      · rw [hel]
        rw [hel, hs2get] at hget
        injection hget with hget2
        rw [hget2] at hs2sub
        rcases mem_setAdd (hs2sub x hx) with hxs0 | hxid
        · rcases hmw.members (nid, m) hmMem (l, s0) hs0mem x hxs0 with hcase | hcase
          · exact Or.inl ⟨hcase.1, by omega⟩
          · exact Or.inr (hTransfer x l hcase)
        · exact Or.inl ⟨hxid, hl⟩
      · rw [hn2Other e.1 hel] at hget
        rcases hmw.members (nid, m) hmMem (e.1, e.2) (alGet_mem hget) x hx with hcase | hcase
        · exact Or.inl hcase
        · exact Or.inr (hTransfer x e.1 hcase)
    · rcases hmw.members p hold e he x hx with hcase | hcase
      · exact Or.inl hcase
      · exact Or.inr (hTransfer x e.1 hcase)

theorem linkFold_MidWF (M : Nat) (g0 : List (String × HNSWNode)) (sq : ℚ → ℚ)
    (id : String) (level l : Nat) (hl : l ≤ level) :
    ∀ (sel : List String) (gmap : List (String × HNSWNode)) (nn : List (Nat × List String)),
      MidWF M g0 id level gmap →
      (∀ x ∈ sel, ∃ m0, alGet g0 x = some m0 ∧ l ≤ m0.level) →
      MidWF M g0 id level
        ((sel.foldl (fun st nid => linkNeighbor sq M id l st nid) (gmap, nn)).1) := by
  intro sel
  induction sel with
  | nil => intro gmap nn hmw _; exact hmw
  | cons x rest ih =>
    intro gmap nn hmw hsel
    rw [List.foldl_cons]
    have hpair : linkNeighbor sq M id l (gmap, nn) x
        = ((linkNeighbor sq M id l (gmap, nn) x).1, (linkNeighbor sq M id l (gmap, nn) x).2) :=
      rfl
    rw [hpair]
    apply ih
    · exact linkNeighbor_MidWF M g0 sq id level l hl gmap nn hmw x
        (MidWF_resolveUp hmw x l (hsel x (List.mem_cons_self x rest)))
    · intro y hy
      exact hsel y (List.mem_cons_of_mem _ hy)

/-- Main induction for C2: through the linking loop of an insertion of a
fresh id, the evolving node map keeps the mid-insertion invariant and the
new node's neighbor map keeps exactly the layer keys 0..level, sets bounded
by M whose members resolve (pre-insertion) at a sufficient level. -/
theorem linkLayers_WFmain (M efC : Nat) (g0 : List (String × HNSWNode)) (sq : ℚ → ℚ)
    (id : String) (level : Nat) (vector : List ℚ) (hid0 : id ∉ g0.map Prod.fst) :
    ∀ (layers : List Nat) (gmap : List (String × HNSWNode)) (nn : List (Nat × List String))
      (cur : String),
      layers.Pairwise (fun a b => b ≤ a) →
      layers.Nodup →
      (∀ lp ∈ layers, lp ≤ level) →
      MidWF M g0 id level gmap →
      (∃ m0, alGet g0 cur = some m0 ∧ ∀ lp ∈ layers, lp ≤ m0.level) →
      (∀ lp sp, alGet nn lp = some sp → ∀ x ∈ sp,
        ∃ m0, alGet g0 x = some m0 ∧ lp ≤ m0.level) →
      (∀ lp sp, alGet nn lp = some sp → sp.length ≤ M) →
      (∀ lp ∈ layers, alGet nn lp = some []) →
      (nn.map Prod.fst = List.range (level + 1)) →
      (MidWF M g0 id level (linkLayers sq M efC id vector layers (gmap, nn, cur)).1 ∧
        (∀ lp sp, alGet (linkLayers sq M efC id vector layers (gmap, nn, cur)).2.1 lp = some sp →
          ∀ x ∈ sp, ∃ m0, alGet g0 x = some m0 ∧ lp ≤ m0.level) ∧
        (∀ lp sp, alGet (linkLayers sq M efC id vector layers (gmap, nn, cur)).2.1 lp = some sp →
          sp.length ≤ M) ∧
        ((linkLayers sq M efC id vector layers (gmap, nn, cur)).2.1.map Prod.fst
          = List.range (level + 1))) := by
  intro layers
  induction layers with
  | nil =>
    intro gmap nn cur _ _ _ hmw _ hnnQ hnnS _ hnnK
    rw [linkLayers]
    exact ⟨hmw, hnnQ, hnnS, hnnK⟩
  | cons l rest ih =>
    intro gmap nn cur hpw hnd hlev hmw hcur hnnQ hnnS hnnI hnnK
    have hl : l ≤ level := hlev l (List.mem_cons_self l rest)
    have hpw2 := List.pairwise_cons.1 hpw
    have hnd2 := List.nodup_cons.1 hnd
    simp only [linkLayers]
    set cands := HNSWGraph.searchLayer gmap sq vector efC l cur with hcandsdef
    set sel := HNSWGraph.selectNeighbors gmap sq cands M vector with hseldef
    set stG := sel.foldl (fun st nid => linkNeighbor sq M id l st nid) (gmap, nn) with hstGdef
    set cur2 := headOr cands cur with hcur2def
    have hcandQ : ∀ x ∈ cands, ∃ m0, alGet g0 x = some m0 ∧ l ≤ m0.level := by
      intro x hx
      obtain ⟨⟨nx, hnx⟩, hor⟩ := (searchLayer_spec gmap sq vector efC l cur).2.1 x hx
      rcases hor with hxcur | hxlay
      · subst hxcur
        obtain ⟨m0, hm0, hbnd⟩ := hcur
        exact ⟨m0, hm0, hbnd l (List.mem_cons_self l rest)⟩
      · obtain ⟨k, n, s, hk, hs, hmem⟩ := hxlay
        rcases hmw.members (k, n) (alGet_mem hk) (l, s) (alGet_mem hs) x hmem with hid2 | hres
        · exfalso
          rw [hid2.1] at hnx
          have hin : id ∈ gmap.map Prod.fst := alGet_mem_keys hnx
          rw [hmw.keys] at hin
          exact hid0 hin
        · exact MidWF_resolveDown hmw x l hres
    have hselQ : ∀ x ∈ sel, ∃ m0, alGet g0 x = some m0 ∧ l ≤ m0.level := by
      intro x hx
      exact hcandQ x (selectNeighbors_mem gmap sq cands M vector x hx)
    have hmw2 : MidWF M g0 id level stG.1 := by
      rw [hstGdef]
      exact linkFold_MidWF M g0 sq id level l hl sel gmap nn hmw hselQ
    have hcur2Q : ∃ m0, alGet g0 cur2 = some m0 ∧ ∀ lp ∈ rest, lp ≤ m0.level := by
      rw [hcur2def]
      cases hc : cands with
      | nil =>
        obtain ⟨m0, hm0, hb⟩ := hcur
        exact ⟨m0, hm0, fun lp hlp => hb lp (List.mem_cons_of_mem l hlp)⟩
      | cons c cs =>
        obtain ⟨m0, hm0, hbl⟩ := hcandQ c (by rw [hc]; exact List.mem_cons_self c cs)
        exact ⟨m0, hm0, fun lp hlp => le_trans (hpw2.1 lp hlp) hbl⟩
    have hlkeynn : l ∈ nn.map Prod.fst := by
      rw [hnnK, List.mem_range]
      omega
    have hnnG : stG.2 = sel.foldl (fun s nid => alSet s l (setAdd ((alGet s l).getD []) nid)) nn := by
      rw [hstGdef]
      exact linkFold_nn sq M id l sel gmap nn
    have hkeys2 : stG.2.map Prod.fst = List.range (level + 1) := by
      rw [hnnG, nnFold_keys l sel nn hlkeynn]
      exact hnnK
    have hatl : alGet stG.2 l = some (sel.foldl setAdd []) := by
      rw [hnnG]
      exact nnFold_at_layer l sel nn [] (hnnI l (List.mem_cons_self l rest))
    have hother : ∀ l2, l2 ≠ l → alGet stG.2 l2 = alGet nn l2 := by
      intro l2 hl2
      rw [hnnG]
      exact nnFold_other_layer l l2 hl2 sel nn
    have hnnQ2 : ∀ lp sp, alGet stG.2 lp = some sp → ∀ x ∈ sp,
        ∃ m0, alGet g0 x = some m0 ∧ lp ≤ m0.level := by
      intro lp sp hsp x hx
      by_cases hlp : lp = l
      · subst hlp
        rw [hatl] at hsp
        injection hsp with hsp2
        rw [← hsp2] at hx
        rcases mem_foldl_setAdd sel [] x hx with h0 | hS
        · simp at h0
        · exact hselQ x hS
      · rw [hother lp hlp] at hsp
        exact hnnQ lp sp hsp x hx
    have hnnS2 : ∀ lp sp, alGet stG.2 lp = some sp → sp.length ≤ M := by
      intro lp sp hsp
      by_cases hlp : lp = l
      · subst hlp
        rw [hatl] at hsp
        injection hsp with hsp2
        rw [← hsp2]
        have h1 := foldl_setAdd_length sel []
        have h2 := selectNeighbors_length gmap sq cands M vector
        rw [← hseldef] at h2
        simp only [List.length_nil] at h1
        omega
      · rw [hother lp hlp] at hsp
        exact hnnS lp sp hsp
    have hnnI2 : ∀ lp ∈ rest, alGet stG.2 lp = some [] := by
      intro lp hlp
      have hlpne : lp ≠ l := fun he => hnd2.1 (he ▸ hlp)
      rw [hother lp hlpne]
      exact hnnI lp (List.mem_cons_of_mem l hlp)
    exact ih stG.1 stG.2 cur2 hpw2.2 hnd2.2 (fun lp hlp => hlev lp (List.mem_cons_of_mem l hlp))
      hmw2 hcur2Q hnnQ2 hnnS2 hnnI2 hkeys2

/-- The coarse descent over layers all at least `b` keeps the entry point at
a node of level at least `b`, when every layer-set member resolves at a
sufficient level. -/
theorem descend_level_ge (gmap : List (String × HNSWNode)) (sq : ℚ → ℚ) (query : List ℚ)
    (b : Nat)
    (hmem : ∀ l i, inLayerSet gmap l i → ∃ m, alGet gmap i = some m ∧ l ≤ m.level) :
    ∀ (layers : List Nat) (cur : String),
      (∀ lp ∈ layers, b ≤ lp) →
      (∃ n, alGet gmap cur = some n ∧ b ≤ n.level) →
      ∃ n, alGet gmap (HNSWGraph.descend gmap sq query layers cur) = some n ∧ b ≤ n.level := by
  intro layers
  induction layers with
  | nil => intro cur _ h; exact h
  | cons l rest ih =>
    intro cur hb h
    have hfold : HNSWGraph.descend gmap sq query (l :: rest) cur
        = HNSWGraph.descend gmap sq query rest (descendStep gmap sq query cur l) := by
      unfold HNSWGraph.descend
      rw [List.foldl_cons]
    rw [hfold]
    apply ih _ (fun lp hlp => hb lp (List.mem_cons_of_mem l hlp))
    cases hsl : HNSWGraph.searchLayer gmap sq query 1 l cur with
    | nil =>
      have hstep : descendStep gmap sq query cur l = cur := by
        unfold descendStep
        rw [hsl]
        rfl
      rw [hstep]
      exact h
    | cons c cs =>
      have hstep : descendStep gmap sq query cur l = c := by
        unfold descendStep
        rw [hsl]
        rfl
      rw [hstep]
      obtain ⟨⟨nx, hnx⟩, hor⟩ := (searchLayer_spec gmap sq query 1 l cur).2.1 c
        (by rw [hsl]; exact List.mem_cons_self c cs)
      rcases hor with hccur | hclay
      · subst hccur
        exact h
      · obtain ⟨m, hm, hlm⟩ := hmem l c hclay
        exact ⟨m, hm, le_trans (hb l (List.mem_cons_self l rest)) hlm⟩

/-- When the moving entry id does not resolve, every layer search returns
nothing and the linking loop is a no-op (this is what happens when a node
whose level exceeds the max layer is inserted: it became the entry point
before being committed). -/
theorem linkLayers_stuck (sq : ℚ → ℚ) (M efC : Nat) (id : String) (vector : List ℚ) :
    ∀ (layers : List Nat) (gmap : List (String × HNSWNode)) (nn : List (Nat × List String))
      (cur : String),
      alGet gmap cur = none →
      linkLayers sq M efC id vector layers (gmap, nn, cur) = (gmap, nn, cur) := by
  intro layers
  induction layers with
  | nil => intro gmap nn cur _; rw [linkLayers]
  | cons l rest ih =>
    intro gmap nn cur hcur
    simp only [linkLayers]
    rw [searchLayer_eq_none gmap sq vector efC l cur hcur]
    have hsel : HNSWGraph.selectNeighbors gmap sq [] M vector = [] := by
      unfold HNSWGraph.selectNeighbors
      rw [if_pos (by simp)]
    rw [hsel]
    simp only [List.foldl_nil]
    exact ih gmap nn cur hcur

theorem makeLayers_keys (level : Nat) :
    ((List.range (level + 1)).map (fun l => (l, ([] : List String)))).map Prod.fst
      = List.range (level + 1) := by
  rw [List.map_map,
    show (Prod.fst ∘ fun l : Nat => (l, ([] : List String))) = id from rfl, List.map_id]

theorem makeLayers_entries (level : Nat) :
    ∀ e ∈ (List.range (level + 1)).map (fun l => (l, ([] : List String))), e.2 = [] := by
  intro e he
  obtain ⟨i, _, hf⟩ := List.mem_map.1 he
  rw [← hf]

/-- Committing a fresh node with empty neighbor sets (as entry point at a new
top level) preserves well-formedness when its level dominates the graph. -/
theorem WF_addFresh (g : HNSWGraph) (id : String) (vector : List ℚ) (level : Nat)
    (hWF : g.WF) (hid : id ∉ g.graph.map Prod.fst)
    (hup : ∀ p ∈ g.graph, p.2.level ≤ level) :
    ({ g with
      graph := alSet g.graph id (HNSWNode.mk id vector level
        ((List.range (level + 1)).map (fun l => (l, ([] : List String))))),
      entryPointId := some id,
      maxLevel := level } : HNSWGraph).WF := by
  refine ⟨?_, ?_, ?_, ?_, ?_, ?_, ?_, ?_⟩
  · show ((alSet g.graph id _).map Prod.fst).Nodup
    rw [keys_alSet_of_not_mem _ hid]
    refine List.Nodup.append hWF.keysNodup (List.nodup_singleton id) ?_
    intro x hx hy
    simp at hy
    subst hy
    exact hid hx
  · intro p hp
    rcases mem_alSet hp with he | hold
    · rw [he]
      exact makeLayers_keys level
    · exact hWF.layerKeys p hold
  · intro p hp e he
    rcases mem_alSet hp with hee | hold
    · subst hee
      rw [makeLayers_entries level e he]
      simp
    · exact hWF.sizes p hold e he
  · intro p hp e he nid hnid
    rcases mem_alSet hp with hee | hold
    · subst hee
      rw [makeLayers_entries level e he] at hnid
      simp at hnid
    · obtain ⟨m, hm, hb⟩ := hWF.members p hold e he nid hnid
      have hne : nid ≠ id := by
        intro heq
        subst heq
        exact hid (alGet_mem_keys hm)
      refine ⟨m, ?_, hb⟩
      show alGet (alSet g.graph id _) nid = some m
      rw [alGet_alSet_ne _ _ _ _ hne]
      exact hm
  · intro h
    simp at h
  · intro e he
    simp only [] at he
    injection he with he2
    subst he2
    refine ⟨HNSWNode.mk id vector level
      ((List.range (level + 1)).map (fun l => (l, ([] : List String)))), ?_, rfl⟩
    exact alGet_alSet_self g.graph id _
  · intro p hp
    rcases mem_alSet hp with hee | hold
    · rw [hee]
    · exact hup p hold
  · intro h
    exact absurd h (alSet_ne_nil _ _ _)

/-- Insertion of a fresh id preserves well-formedness, appends exactly that
id to the key list, and leaves the configuration unchanged. -/
theorem insert_WF (g : HNSWGraph) (sq : ℚ → ℚ) (id : String) (vector : List ℚ) (level : Nat)
    (hWF : g.WF) (hid : id ∉ g.graph.map Prod.fst) :
    (g.insert sq id vector level).WF ∧
    (g.insert sq id vector level).graph.map Prod.fst = g.graph.map Prod.fst ++ [id] ∧
    (g.insert sq id vector level).M = g.M := by
  cases hE : g.entryPointId with
  | none =>
    have h0 : g.graph = [] := hWF.entryNone hE
    rw [insert_eq_entry_none g sq id vector level hE]
    refine ⟨WF_addFresh g id vector level hWF hid ?_, ?_, rfl⟩
    · intro p hp
      rw [h0] at hp
      simp at hp
    · exact keys_alSet_of_not_mem _ hid
  | some e0 =>
    by_cases hnil : g.graph = []
    · exfalso
      obtain ⟨n, hget, _⟩ := hWF.entrySome e0 hE
      rw [hnil] at hget
      simp [alGet] at hget
    · by_cases hhigh : g.maxLevel < level
      · -- the new node outranks the graph: it became the entry point before
        -- being committed, so every search fails and no links are made
        obtain ⟨st, hst⟩ : ∃ st, st = linkLayers sq g.M g.efConstruction id vector
            ((List.range (level + 1)).reverse)
            (g.graph, (List.range (level + 1)).map (fun l => (l, ([] : List String))),
              HNSWGraph.descend g.graph sq vector
                ((List.range' (level + 1)
                  ((if g.maxLevel < level then level else g.maxLevel) - level)).reverse)
                (if g.maxLevel < level then id else e0)) := ⟨_, rfl⟩
      
        rw [insert_eq_main g sq id vector level e0 hE hnil st hst]
        rw [if_pos hhigh, if_pos hhigh, Nat.sub_self] at hst
        have hdesc : HNSWGraph.descend g.graph sq vector
            ((List.range' (level + 1) 0).reverse) id = id := rfl
        rw [hdesc] at hst
        have hidnone : alGet g.graph id = none := by
          cases halg : alGet g.graph id with
          | none => rfl
          | some n => exact absurd (alGet_mem_keys halg) hid
        rw [linkLayers_stuck sq g.M g.efConstruction id vector _ g.graph _ id hidnone] at hst
        subst hst
        rw [if_pos hhigh, if_pos hhigh]
        refine ⟨WF_addFresh g id vector level hWF hid ?_, ?_, rfl⟩
        · intro p hp
          have := hWF.levels p hp
          omega
        · exact keys_alSet_of_not_mem _ hid
      · -- main case: the new node links into layers 0..level
        obtain ⟨eN, heN, heLvl⟩ := hWF.entrySome e0 hE
        obtain ⟨st, hst⟩ : ∃ st, st = linkLayers sq g.M g.efConstruction id vector
            ((List.range (level + 1)).reverse)
            (g.graph, (List.range (level + 1)).map (fun l => (l, ([] : List String))),
              HNSWGraph.descend g.graph sq vector
                ((List.range' (level + 1)
                  ((if g.maxLevel < level then level else g.maxLevel) - level)).reverse)
                (if g.maxLevel < level then id else e0)) := ⟨_, rfl⟩
        rw [insert_eq_main g sq id vector level e0 hE hnil st hst]
        rw [if_neg hhigh, if_neg hhigh] at hst
        rw [if_neg hhigh, if_neg hhigh]
        have hlev : level ≤ g.maxLevel := by omega
        have hmemprop := members_inLayerSet g.graph hWF.members
        have hcur0 : ∃ n, alGet g.graph (HNSWGraph.descend g.graph sq vector
            ((List.range' (level + 1) (g.maxLevel - level)).reverse) e0) = some n ∧
            level ≤ n.level := by
          apply descend_level_ge g.graph sq vector level hmemprop
          · intro lp hlp
            rw [List.mem_reverse] at hlp
            rw [List.mem_range'_1] at hlp
            omega
          · exact ⟨eN, heN, by omega⟩
        have hmw0 : MidWF g.M g.graph id level g.graph :=
          ⟨rfl, fun _ => rfl, hWF.layerKeys, hWF.sizes,
            fun p hp e he nid hnid => Or.inr (hWF.members p hp e he nid hnid)⟩
        have hnnQ0 : ∀ lp sp, alGet ((List.range (level + 1)).map
            (fun l => (l, ([] : List String)))) lp = some sp → ∀ x ∈ sp,
            ∃ m0, alGet g.graph x = some m0 ∧ lp ≤ m0.level := by
          intro lp sp hsp x hx
          rw [alGet_map_range] at hsp
          by_cases hlp : lp < level + 1
          · rw [if_pos hlp] at hsp
            injection hsp with hsp2
            rw [← hsp2] at hx
            simp at hx
          · rw [if_neg hlp] at hsp
            exact absurd hsp (by simp)
        have hnnS0 : ∀ lp sp, alGet ((List.range (level + 1)).map
            (fun l => (l, ([] : List String)))) lp = some sp → sp.length ≤ g.M := by
          intro lp sp hsp
          rw [alGet_map_range] at hsp
          by_cases hlp : lp < level + 1
          · rw [if_pos hlp] at hsp
            injection hsp with hsp2
            rw [← hsp2]
            simp
          · rw [if_neg hlp] at hsp
            exact absurd hsp (by simp)
        have hnnI0 : ∀ lp ∈ (List.range (level + 1)).reverse,
            alGet ((List.range (level + 1)).map (fun l => (l, ([] : List String)))) lp
              = some [] := by
          intro lp hlp
          rw [List.mem_reverse, List.mem_range] at hlp
          rw [alGet_map_range, if_pos hlp]
        obtain ⟨hmwF, hQF, hSF, hKF⟩ := linkLayers_WFmain g.M g.efConstruction g.graph sq
          id level vector hid ((List.range (level + 1)).reverse) g.graph
          ((List.range (level + 1)).map (fun l => (l, ([] : List String))))
          (HNSWGraph.descend g.graph sq vector
            ((List.range' (level + 1) (g.maxLevel - level)).reverse) e0)
          (by
            rw [List.pairwise_reverse]
            exact (List.pairwise_lt_range _).imp (fun h => Nat.le_of_lt h))
          (List.nodup_reverse.mpr (List.nodup_range _))
          (by
            intro lp hlp
            rw [List.mem_reverse, List.mem_range] at hlp
            omega)
          hmw0
          (by
            obtain ⟨n, hn, hnl⟩ := hcur0
            refine ⟨n, hn, ?_⟩
            intro lp hlp
            rw [List.mem_reverse, List.mem_range] at hlp
            omega)
          hnnQ0 hnnS0 hnnI0 (makeLayers_keys level)
        rw [← hst] at hmwF hQF hSF hKF
        -- transfer of resolvable-with-bound facts into the final graph
        have hfinTrans : ∀ (x : String) (bnd : Nat),
            (∃ m0, alGet g.graph x = some m0 ∧ bnd ≤ m0.level) →
            ∃ m, alGet (alSet st.1 id (HNSWNode.mk id vector level st.2.1)) x = some m ∧
              bnd ≤ m.level := by
          intro x bnd hx
          obtain ⟨m, hm, hb⟩ := MidWF_resolveUp hmwF x bnd hx
          have hxne : x ≠ id := by
            intro he
            subst he
            have : x ∈ st.1.map Prod.fst := alGet_mem_keys hm
            rw [hmwF.keys] at this
            exact hid this
          refine ⟨m, ?_, hb⟩
          rw [alGet_alSet_ne _ _ _ _ hxne]
          exact hm
        have hnewKeys : (HNSWNode.mk id vector level st.2.1).neighbors.map Prod.fst
            = List.range ((HNSWNode.mk id vector level st.2.1).level + 1) := hKF
        refine ⟨⟨?_, ?_, ?_, ?_, ?_, ?_, ?_, ?_⟩, ?_, rfl⟩
        · show ((alSet st.1 id _).map Prod.fst).Nodup
          rw [keys_alSet_of_not_mem _ (by rw [hmwF.keys]; exact hid), hmwF.keys]
          refine List.Nodup.append hWF.keysNodup (List.nodup_singleton id) ?_
          intro x hx hy
          simp at hy
          subst hy
          exact hid hx
        · intro p hp
          rcases mem_alSet hp with he | hold
          · rw [he]
            exact hnewKeys
          · exact hmwF.layerKeys p hold
        · intro p hp e he
          rcases mem_alSet hp with hee | hold
          · subst hee
            have hget := node_entry_alGet _ hnewKeys e he
            exact hSF e.1 e.2 hget
          · exact hmwF.sizes p hold e he
        · intro p hp e he x hx
          rcases mem_alSet hp with hee | hold
          · subst hee
            have hget := node_entry_alGet _ hnewKeys e he
            exact hfinTrans x e.1 (hQF e.1 e.2 hget x hx)
          · rcases hmwF.members p hold e he x hx with hcase | hcase
            · refine ⟨HNSWNode.mk id vector level st.2.1, ?_, ?_⟩
              · rw [hcase.1]
                exact alGet_alSet_self st.1 id _
              · exact hcase.2
            · obtain ⟨m, hm, hb⟩ := hcase
              have hxne : x ≠ id := by
                intro heq
                subst heq
                have : x ∈ st.1.map Prod.fst := alGet_mem_keys hm
                rw [hmwF.keys] at this
                exact hid this
              refine ⟨m, ?_, hb⟩
              rw [alGet_alSet_ne _ _ _ _ hxne]
              exact hm
        · intro h
          simp at h
        · intro e he
          simp only [] at he
          injection he with he2
          subst he2
          have hlevE := hmwF.levelsEq e0
          rw [heN] at hlevE
          cases halg : alGet st.1 e0 with
          | none =>
            rw [halg] at hlevE
            simp at hlevE
          | some m =>
            rw [halg] at hlevE
            have hml : m.level = eN.level := by simpa using hlevE
            have hene : e0 ≠ id := by
              intro heq
              subst heq
              exact hid (alGet_mem_keys heN)
            refine ⟨m, ?_, by show m.level = g.maxLevel ; omega⟩
            rw [alGet_alSet_ne _ _ _ _ hene]
            exact halg
        · intro p hp
          rcases mem_alSet hp with hee | hold
          · rw [hee]
            exact hlev
          · have hndSt : (st.1.map Prod.fst).Nodup := by
              rw [hmwF.keys]
              exact hWF.keysNodup
            have hget : alGet st.1 p.1 = some p.2 := (mem_iff_alGet hndSt p.1 p.2).1 hold
            have hlevE := hmwF.levelsEq p.1
            rw [hget] at hlevE
            cases halg : alGet g.graph p.1 with
            | none =>
              rw [halg] at hlevE
              simp at hlevE
            | some m0 =>
              rw [halg] at hlevE
              have : p.2.level = m0.level := by simpa using hlevE
              have := hWF.levels (p.1, m0) (alGet_mem halg)
              simp only [] at this
              show p.2.level ≤ g.maxLevel
              omega
        · intro h
          exact absurd h (alSet_ne_nil _ _ _)
        · show (alSet st.1 id _).map Prod.fst = _
          rw [keys_alSet_of_not_mem _ (by rw [hmwF.keys]; exact hid), hmwF.keys]

theorem WF_mkEmpty (M efC : Nat) : (HNSWGraph.mkEmpty M efC).WF := by
  refine ⟨?_, ?_, ?_, ?_, ?_, ?_, ?_, ?_⟩
  · exact List.nodup_nil
  · intro p hp; simp [HNSWGraph.mkEmpty] at hp
  · intro p hp; simp [HNSWGraph.mkEmpty] at hp
  · intro p hp; simp [HNSWGraph.mkEmpty] at hp
  · intro _; rfl
  · intro e he; exact absurd he (by simp [HNSWGraph.mkEmpty])
  · intro p hp; simp [HNSWGraph.mkEmpty] at hp
  · intro _; rfl

theorem WF_maxLevel (g : HNSWGraph) (hWF : g.WF) :
    g.maxLevel = (g.graph.map (fun p => p.2.level)).foldr max 0 := by
  by_cases h : g.graph = []
  · rw [hWF.emptyMax h, h]
    rfl
  · cases hE : g.entryPointId with
    | none => exact absurd (hWF.entryNone hE) h
    | some e =>
      obtain ⟨n, hn, hlev⟩ := hWF.entrySome e hE
      apply Nat.le_antisymm
      · rw [← hlev]
        exact le_foldr_max _ _ (List.mem_map.mpr ⟨(e, n), alGet_mem hn, rfl⟩)
      · apply foldr_max_le
        intro x hx
        obtain ⟨p, hp, hpx⟩ := List.mem_map.mp hx
        rw [← hpx]
        exact hWF.levels p hp

theorem foldl_insert_WF (sq : ℚ → ℚ) :
    ∀ (ops : List (String × List ℚ × Nat)) (g : HNSWGraph),
    g.WF → (g.graph.map Prod.fst ++ ops.map Prod.fst).Nodup →
    ((ops.foldl (fun g op => g.insert sq op.1 op.2.1 op.2.2) g).WF ∧
     (ops.foldl (fun g op => g.insert sq op.1 op.2.1 op.2.2) g).graph.map Prod.fst
       = g.graph.map Prod.fst ++ ops.map Prod.fst ∧
     (ops.foldl (fun g op => g.insert sq op.1 op.2.1 op.2.2) g).M = g.M) := by
  intro ops
  induction ops with
  | nil =>
    intro g hWF _
    exact ⟨hWF, by simp, rfl⟩
  | cons op rest ih =>
    intro g hWF hnd
    have hfresh : op.1 ∉ g.graph.map Prod.fst := by
      intro hmem
      rw [List.nodup_append] at hnd
      exact hnd.2.2 hmem (by simp)
    obtain ⟨hWF1, hkeys1, hM1⟩ := insert_WF g sq op.1 op.2.1 op.2.2 hWF hfresh
    simp only [List.foldl_cons]
    obtain ⟨hWF2, hkeys2, hM2⟩ := ih (g.insert sq op.1 op.2.1 op.2.2) hWF1
      (by
        rw [hkeys1, List.append_assoc]
        simpa using hnd)
    refine ⟨hWF2, ?_, by rw [hM2]; exact hM1⟩
    rw [hkeys2, hkeys1, List.append_assoc]
    simp

theorem buildGraph_WF (M efC : Nat) (sq : ℚ → ℚ) (ops : List (String × List ℚ × Nat))
    (hnd : (ops.map Prod.fst).Nodup) :
    (buildGraph M efC sq ops).WF ∧
    (buildGraph M efC sq ops).graph.map Prod.fst = ops.map Prod.fst ∧
    (buildGraph M efC sq ops).M = M := by
  obtain ⟨h1, h2, h3⟩ := foldl_insert_WF sq ops (HNSWGraph.mkEmpty M efC) (WF_mkEmpty M efC)
    (by simpa [HNSWGraph.mkEmpty] using hnd)
  exact ⟨h1, by simpa [HNSWGraph.mkEmpty] using h2, h3⟩

theorem linkNeighbor_keys (sq : ℚ → ℚ) (M : Nat) (id : String) (l : Nat)
    (st : List (String × HNSWNode) × List (Nat × List String)) (nid : String) :
    (linkNeighbor sq M id l st nid).1.map Prod.fst = st.1.map Prod.fst := by
  unfold linkNeighbor
  cases h : alGet st.1 nid with
  | none => rfl
  | some n =>
    exact keys_alSet_of_mem _ (alGet_mem_keys h)

theorem linkFold_keys (sq : ℚ → ℚ) (M : Nat) (id : String) (l : Nat) :
    ∀ (sel : List String) (gmap : List (String × HNSWNode)) (nn : List (Nat × List String)),
      ((sel.foldl (fun st nid => linkNeighbor sq M id l st nid) (gmap, nn)).1).map Prod.fst
        = gmap.map Prod.fst := by
  intro sel
  induction sel with
  | nil => intro gmap nn; rfl
  | cons x rest ih =>
    intro gmap nn
    rw [List.foldl_cons]
    rw [show linkNeighbor sq M id l (gmap, nn) x
      = ((linkNeighbor sq M id l (gmap, nn) x).1, (linkNeighbor sq M id l (gmap, nn) x).2)
      from rfl]
    rw [ih]
    exact linkNeighbor_keys sq M id l (gmap, nn) x

theorem linkLayers_keys (sq : ℚ → ℚ) (M efC : Nat) (id : String) (vector : List ℚ) :
    ∀ (layers : List Nat) (gmap : List (String × HNSWNode)) (nn : List (Nat × List String))
      (cur : String),
      (linkLayers sq M efC id vector layers (gmap, nn, cur)).1.map Prod.fst
        = gmap.map Prod.fst := by
  intro layers
  induction layers with
  | nil => intro gmap nn cur; rw [linkLayers]
  | cons l rest ih =>
    intro gmap nn cur
    rw [linkLayers]
    rw [ih]
    exact linkFold_keys sq M id l _ gmap nn

/-- Counterexample to C2 as stated ("after any sequence of insert calls"):
inserting id "a" with drawn level 2 and then the same id "a" again with drawn
level 0 leaves the graph with a single node of level 0 while `maxLevel` is
still 2, so `maxLevel` does not equal the maximum level over the nodes of the
graph. -/
theorem C2_counterexample :
    (buildGraph 16 200 (fun x => x) [("a", [1], 2), ("a", [1], 0)]).maxLevel = 2 ∧
    (buildGraph 16 200 (fun x => x) [("a", [1], 2), ("a", [1], 0)]).graph.map
      (fun p => p.2.level) = [0] ∧
    ¬ (buildGraph 16 200 (fun x => x) [("a", [1], 2), ("a", [1], 0)]).maxLevel
      = ((buildGraph 16 200 (fun x => x) [("a", [1], 2), ("a", [1], 0)]).graph.map
          (fun p => p.2.level)).foldr max 0 := by
  have h1 : (HNSWGraph.mkEmpty 16 200).insert (fun x => x) "a" [1] 2
      = HNSWGraph.mk 16 200 [("a", HNSWNode.mk "a" [1] 2 [(0, []), (1, []), (2, [])])]
          2 (some "a") := by
    rw [insert_eq_entry_none _ _ _ _ _ rfl]
    rfl
  have hbg : buildGraph 16 200 (fun x => x) [("a", [1], 2), ("a", [1], 0)]
      = (HNSWGraph.mk 16 200 [("a", HNSWNode.mk "a" [1] 2 [(0, []), (1, []), (2, [])])]
          2 (some "a")).insert (fun x => x) "a" [1] 0 := by
    show ((HNSWGraph.mkEmpty 16 200).insert (fun x => x) "a" [1] 2).insert
        (fun x => x) "a" [1] 0 = _
    rw [h1]
  obtain ⟨st, hst⟩ : ∃ st, st = linkLayers (fun x => x)
      (HNSWGraph.mk 16 200 [("a", HNSWNode.mk "a" [1] 2 [(0, []), (1, []), (2, [])])]
        2 (some "a")).M
      (HNSWGraph.mk 16 200 [("a", HNSWNode.mk "a" [1] 2 [(0, []), (1, []), (2, [])])]
        2 (some "a")).efConstruction "a" [1]
      ((List.range (0 + 1)).reverse)
      ((HNSWGraph.mk 16 200 [("a", HNSWNode.mk "a" [1] 2 [(0, []), (1, []), (2, [])])]
          2 (some "a")).graph,
        (List.range (0 + 1)).map (fun l => (l, ([] : List String))),
        HNSWGraph.descend
          (HNSWGraph.mk 16 200 [("a", HNSWNode.mk "a" [1] 2 [(0, []), (1, []), (2, [])])]
            2 (some "a")).graph (fun x => x) [1]
          ((List.range' (0 + 1)
            ((if (HNSWGraph.mk 16 200
                [("a", HNSWNode.mk "a" [1] 2 [(0, []), (1, []), (2, [])])]
                2 (some "a")).maxLevel < 0 then 0
              else (HNSWGraph.mk 16 200
                [("a", HNSWNode.mk "a" [1] 2 [(0, []), (1, []), (2, [])])]
                2 (some "a")).maxLevel) - 0)).reverse)
          (if (HNSWGraph.mk 16 200
              [("a", HNSWNode.mk "a" [1] 2 [(0, []), (1, []), (2, [])])]
              2 (some "a")).maxLevel < 0 then "a" else "a")) := ⟨_, rfl⟩
  have heq := insert_eq_main
    (HNSWGraph.mk 16 200 [("a", HNSWNode.mk "a" [1] 2 [(0, []), (1, []), (2, [])])]
      2 (some "a")) (fun x => x) "a" [1] 0 "a" rfl (by simp) st hst
  have hkeys : st.1.map Prod.fst = ["a"] := by
    rw [hst]
    exact linkLayers_keys (fun x => x) _ _ "a" [1] _ _ _ _
  have hmax : (buildGraph 16 200 (fun x => x) [("a", [1], 2), ("a", [1], 0)]).maxLevel
      = 2 := by
    rw [hbg, heq]
    rfl
  have hlvl : (buildGraph 16 200 (fun x => x) [("a", [1], 2), ("a", [1], 0)]).graph.map
      (fun p => p.2.level) = [0] := by
    rw [hbg, heq]
    cases hst1 : st.1 with
    | nil =>
      rw [hst1] at hkeys
      simp at hkeys
    | cons p rest =>
      rw [hst1] at hkeys
      simp only [List.map_cons, List.cons.injEq] at hkeys
      obtain ⟨k, v⟩ := p
      have hk : k = "a" := hkeys.1
      have hrest : rest = [] := List.map_eq_nil_iff.mp hkeys.2
      subst hk
      subst hrest
      rfl
  refine ⟨hmax, hlvl, ?_⟩
  rw [hmax, hlvl]
  decide

/-- C2 (amended): after any sequence of insert calls with pairwise-distinct
ids starting from the empty graph, every node's neighbors map has an entry
for exactly the layers 0..level of that node, every per-layer neighbor set
contains at most M ids, and the graph's maxLevel field equals the maximum
level over all nodes of the graph. -/
theorem C2_graph_invariants (M efC : Nat) (sq : ℚ → ℚ)
    (ops : List (String × List ℚ × Nat)) (hnd : (ops.map Prod.fst).Nodup) :
    (∀ p ∈ (buildGraph M efC sq ops).graph,
       p.2.neighbors.map Prod.fst = List.range (p.2.level + 1)) ∧
    (∀ p ∈ (buildGraph M efC sq ops).graph, ∀ e ∈ p.2.neighbors, e.2.length ≤ M) ∧
    (buildGraph M efC sq ops).maxLevel
      = ((buildGraph M efC sq ops).graph.map (fun p => p.2.level)).foldr max 0 := by
  obtain ⟨hWF, _hkeys, hM⟩ := buildGraph_WF M efC sq ops hnd
  refine ⟨hWF.layerKeys, ?_, WF_maxLevel _ hWF⟩
  intro p hp e he
  have hs := hWF.sizes p hp e he
  rw [hM] at hs
  exact hs

/-- Witness for the amended C2 at a concrete distinct-id insertion sequence. -/
theorem C2_witness :
    (([("a", [1], 0), ("b", [1], 1)] : List (String × List ℚ × Nat)).map
      Prod.fst).Nodup ∧
    (buildGraph 16 200 (fun x => x) [("a", [1], 0), ("b", [1], 1)]).maxLevel
      = ((buildGraph 16 200 (fun x => x) [("a", [1], 0), ("b", [1], 1)]).graph.map
          (fun p => p.2.level)).foldr max 0 :=
  ⟨by decide, (C2_graph_invariants 16 200 (fun x => x)
      [("a", [1], 0), ("b", [1], 1)] (by decide)).2.2⟩

/-- C6: for every limit, `ultraSearch` returns the empty result list whenever
the query trims to the empty string (it is empty or whitespace-only) or the
chunk store holds no chunks. -/
theorem C6_guard_empty (db : UltraVectorDB) (sq sine : ℚ → ℚ) (query : String)
    (limit : Nat) (h : query.trim = "" ∨ db.dataStore = []) :
    UltraVectorDB.ultraSearch db sq sine query limit = [] := by
  unfold UltraVectorDB.ultraSearch
  rw [if_pos h]

/-- Witness for C6 on a freshly constructed database. -/
theorem C6_witness :
    ("hello".trim = "" ∨ (UltraVectorDB.mkEmpty 16 200).dataStore = []) ∧
    UltraVectorDB.ultraSearch (UltraVectorDB.mkEmpty 16 200) (fun x => x) (fun x => x)
      "hello" 5 = [] :=
  ⟨Or.inr rfl,
    C6_guard_empty (UltraVectorDB.mkEmpty 16 200) (fun x => x) (fun x => x) "hello" 5
      (Or.inr rfl)⟩

theorem sortTake_spec (l : List SearchResult) (limit : Nat) :
    ((l.mergeSort (fun a b => decide (b.score ≤ a.score))).take limit).length ≤ limit ∧
    ((l.mergeSort (fun a b => decide (b.score ≤ a.score))).take limit).Pairwise
      (fun a b => b.score ≤ a.score) ∧
    ∀ r ∈ (l.mergeSort (fun a b => decide (b.score ≤ a.score))).take limit, r ∈ l := by
  refine ⟨List.length_take_le _ _, ?_, ?_⟩
  · have h := @List.sorted_mergeSort SearchResult (fun a b => decide (b.score ≤ a.score))
      (fun a b c hab hbc => by
        simp only [decide_eq_true_eq] at *
        exact le_trans hbc hab)
      (fun a b => by
        simp only [Bool.or_eq_true, decide_eq_true_eq]
        exact le_total b.score a.score)
      l
    have h2 := h.imp (fun hab => of_decide_eq_true hab)
    exact h2.sublist (List.take_sublist _ _)
  · intro r hr
    exact mem_take_mergeSort hr

set_option maxRecDepth 8000 in
/-- C3: for every query and limit, `ultraSearch` returns at most `limit`
results, sorted in descending order of combined score, and each result's
score is 0.6 times its recorded ColBERT late-interaction score plus 0.4
times the recorded full-vector cosine similarity between the query's and the
chunk's full embeddings. -/
theorem C3_ultraSearch_ranking (db : UltraVectorDB) (sq sine : ℚ → ℚ) (query : String)
    (limit : Nat) :
    (UltraVectorDB.ultraSearch db sq sine query limit).length ≤ limit ∧
    (UltraVectorDB.ultraSearch db sq sine query limit).Pairwise
      (fun a b => b.score ≤ a.score) ∧
    ∀ r ∈ UltraVectorDB.ultraSearch db sq sine query limit,
      r.score = r.breakdown.colbert * 0.6 + r.breakdown.final * 0.4 ∧
      r.breakdown.colbert = ColBERTEngine.score sq sine query r.chunk.colbert ∧
      r.breakdown.final = cosineSimilarity sq
        (MatryoshkaGenerator.generateAll sine query).matryoshka.full
        r.chunk.matryoshka.full := by
  unfold UltraVectorDB.ultraSearch
  by_cases h : query.trim = "" ∨ db.dataStore = []
  · rw [if_pos h]
    refine ⟨by simp, List.Pairwise.nil, ?_⟩
    intro r hr
    simp at hr
  · rw [if_neg h]
    refine ⟨(sortTake_spec _ _).1, (sortTake_spec _ _).2.1, ?_⟩
    intro r hr
    have hr2 := (sortTake_spec _ _).2.2 r hr
    rcases List.mem_filterMap.mp hr2 with ⟨cid, _hcid, hmap⟩
    rcases Option.map_eq_some'.mp hmap with ⟨c, _hc, hrc⟩
    rw [← hrc]
    exact ⟨rfl, rfl, rfl⟩

theorem dedup_core :
    ∀ (l acc : List String), acc.Nodup →
      (l.foldl (fun acc x => if x ∈ acc then acc else acc ++ [x]) acc).Nodup ∧
      (∀ x, x ∈ l.foldl (fun acc x => if x ∈ acc then acc else acc ++ [x]) acc
        ↔ x ∈ acc ∨ x ∈ l) := by
  intro l
  induction l with
  | nil =>
    intro acc h
    exact ⟨h, fun x => by simp⟩
  | cons y rest ih =>
    intro acc h
    rw [List.foldl_cons]
    by_cases hy : y ∈ acc
    · rw [if_pos hy]
      obtain ⟨h1, h2⟩ := ih acc h
      refine ⟨h1, fun x => ?_⟩
      rw [h2 x]
      constructor
      · rintro (hx | hx)
        · exact Or.inl hx
        · exact Or.inr (List.mem_cons_of_mem _ hx)
      · rintro (hx | hx)
        · exact Or.inl hx
        · rcases List.mem_cons.mp hx with he | hx2
          · subst he
            exact Or.inl hy
          · exact Or.inr hx2
    · rw [if_neg hy]
      obtain ⟨h1, h2⟩ := ih (acc ++ [y]) (by
        rw [List.nodup_append]
        refine ⟨h, List.nodup_singleton y, ?_⟩
        intro a ha hb
        simp at hb
        subst hb
        exact hy ha)
      refine ⟨h1, fun x => ?_⟩
      rw [h2 x]
      simp only [List.mem_append, List.mem_singleton, List.mem_cons]
      tauto

theorem nodup_dedup (l : List String) : (dedup l).Nodup :=
  (dedup_core l [] List.nodup_nil).1

theorem mem_dedup (l : List String) (x : String) : x ∈ dedup l ↔ x ∈ l := by
  rw [dedup, (dedup_core l [] List.nodup_nil).2 x]
  simp

theorem pairwise_lt_scores (l : List SearchResult)
    (h1 : l.Pairwise (fun a b => b.score ≤ a.score))
    (h2 : (l.map (fun r => r.score)).Nodup) :
    l.Pairwise (fun a b => b.score < a.score) := by
  induction l with
  | nil => exact List.Pairwise.nil
  | cons x xs ih =>
    rw [List.pairwise_cons] at h1 ⊢
    rw [List.map_cons, List.nodup_cons] at h2
    refine ⟨?_, ih h1.2 h2.2⟩
    intro b hb
    have hle := h1.1 b hb
    have hne : b.score ≠ x.score := fun he => h2.1 (List.mem_map.mpr ⟨b, hb, he⟩)
    exact lt_of_le_of_ne hle hne


theorem alGet_filter_ne {c : String} :
    ∀ (ds : List (String × UltraChunk)) (x : String), x ≠ c →
      alGet (ds.filter (fun p => decide (p.1 ≠ c))) x = alGet ds x := by
  intro ds
  induction ds with
  | nil => intro x _; rfl
  | cons q rest ih =>
    intro x hx
    by_cases hq : q.1 = c
    · rw [List.filter_cons_of_neg (by simpa using hq)]
      rw [alGet, if_neg (by rw [hq]; exact fun h => hx h.symm)]
      exact ih x hx
    · rw [List.filter_cons_of_pos (by simpa using hq)]
      rw [alGet, alGet]
      by_cases hqx : q.1 = x
      · rw [if_pos hqx, if_pos hqx]
      · rw [if_neg hqx, if_neg hqx]
        exact ih x hx

theorem filter_key_eq_self (c : String) :
    ∀ (ds : List (String × UltraChunk)), c ∉ ds.map Prod.fst →
      ds.filter (fun p => decide (p.1 ≠ c)) = ds := by
  intro ds
  induction ds with
  | nil => intro _; rfl
  | cons q rest ih =>
    intro hc
    rw [List.map_cons] at hc
    rw [List.filter_cons_of_pos (by
      simp only [decide_eq_true_eq]
      intro he
      exact hc (by rw [← he]; exact List.mem_cons_self _ _))]
    rw [ih (fun h => hc (List.mem_cons_of_mem _ h))]

theorem perm_cons_filter_key (c : String) (u : UltraChunk) :
    ∀ (ds : List (String × UltraChunk)), (ds.map Prod.fst).Nodup →
      alGet ds c = some u →
      ds.Perm ((c, u) :: ds.filter (fun p => decide (p.1 ≠ c))) := by
  intro ds
  induction ds with
  | nil =>
    intro _ hget
    rw [alGet] at hget
    exact absurd hget (by simp)
  | cons q rest ih =>
    intro hk hget
    rw [alGet] at hget
    rw [List.map_cons, List.nodup_cons] at hk
    by_cases hq : q.1 = c
    · rw [if_pos hq] at hget
      injection hget with hu
      rw [List.filter_cons_of_neg (by simpa using hq)]
      rw [filter_key_eq_self c rest (by rw [← hq]; exact hk.1)]
      have hqe : q = (c, u) := by
        obtain ⟨q1, q2⟩ := q
        rw [show (q1, q2).1 = q1 from rfl] at hq
        rw [show (q1, q2).2 = q2 from rfl] at hu
        rw [hq, hu]
      rw [hqe]
    · rw [if_neg hq] at hget
      rw [List.filter_cons_of_pos (by simpa using hq)]
      have h1 := (ih hk.2 hget).cons q
      refine h1.trans ?_
      exact List.Perm.swap _ _ _

theorem filterMap_alGet_perm {β : Type} (f : UltraChunk → β) :
    ∀ (cand : List String) (ds : List (String × UltraChunk)),
      (ds.map Prod.fst).Nodup → cand.Nodup → (∀ p ∈ ds, p.1 ∈ cand) →
      (cand.filterMap (fun id => (alGet ds id).map f)).Perm
        (ds.map (fun p => f p.2)) := by
  intro cand
  induction cand with
  | nil =>
    intro ds _ _ hall
    cases ds with
    | nil => simp
    | cons p rest => exact absurd (hall p (List.mem_cons_self _ _)) (by simp)
  | cons c rest ih =>
    intro ds hk hc hall
    cases hgc : alGet ds c with
    | none =>
      have hsplit : (c :: rest).filterMap (fun id => (alGet ds id).map f)
          = rest.filterMap (fun id => (alGet ds id).map f) := by
        rw [List.filterMap_cons, hgc]
        rfl
      rw [hsplit]
      apply ih ds hk (List.nodup_cons.mp hc).2
      intro p hp
      rcases List.mem_cons.mp (hall p hp) with he | hm
      · exfalso
        obtain ⟨v, hv⟩ := alGet_isSome_of_key (List.mem_map.mpr ⟨p, hp, rfl⟩)
        rw [he, hgc] at hv
        simp at hv
      · exact hm
    | some u =>
      have hsplit : (c :: rest).filterMap (fun id => (alGet ds id).map f)
          = f u :: rest.filterMap (fun id => (alGet ds id).map f) := by
        rw [List.filterMap_cons, hgc]
        rfl
      rw [hsplit]
      have hperm := perm_cons_filter_key c u ds hk hgc
      have hkeysf : ((ds.filter (fun p => decide (p.1 ≠ c))).map Prod.fst).Nodup :=
        List.Nodup.sublist ((List.filter_sublist _).map Prod.fst) hk
      have hfm : rest.filterMap (fun id => (alGet ds id).map f)
          = rest.filterMap (fun id =>
              (alGet (ds.filter (fun p => decide (p.1 ≠ c))) id).map f) := by
        apply List.filterMap_congr
        intro x hx
        have hxc : x ≠ c := by
          intro he
          subst he
          exact (List.nodup_cons.mp hc).1 hx
        rw [alGet_filter_ne _ x hxc]
      rw [hfm]
      have hcond : ∀ p ∈ ds.filter (fun p => decide (p.1 ≠ c)), p.1 ∈ rest := by
        intro p hp
        have hpds : p ∈ ds := List.mem_of_mem_filter hp
        have hpne : p.1 ≠ c := by
          have h2 := (List.mem_filter.mp hp).2
          simpa using h2
        rcases List.mem_cons.mp (hall p hpds) with he | hm
        · exact absurd he hpne
        · exact hm
      have hmap := (hperm.map (fun p => f p.2)).symm
      rw [List.map_cons] at hmap
      exact List.Perm.trans (List.Perm.cons (f u)
        (ih (ds.filter (fun p => decide (p.1 ≠ c))) hkeysf
          (List.nodup_cons.mp hc).2 hcond)) hmap

theorem getBinaryCandidates_complete (db : UltraVectorDB) (qn : List Nat)
    (hsize : db.dataStore.length ≤ 500) :
    ∀ p ∈ db.dataStore, p.1 ∈ db.getBinaryCandidates qn 500 := by
  intro p hp
  unfold UltraVectorDB.getBinaryCandidates
  have hne : db.dataStore ≠ [] := by
    intro h
    rw [h] at hp
    simp at hp
  rw [if_neg hne]
  show p.1 ∈ (((db.dataStore.map
      (fun q => (q.1, nanoHammingDistance qn q.2.matryoshka.nano))).mergeSort
      (fun a b => decide (a.2 ≤ b.2))).take
      (min 500 (db.dataStore.map
        (fun q => (q.1, nanoHammingDistance qn q.2.matryoshka.nano))).length)).map
      (fun s => s.1)
  have hlen : (db.dataStore.map
      (fun q => (q.1, nanoHammingDistance qn q.2.matryoshka.nano))).length ≤ 500 := by
    rw [List.length_map]
    exact hsize
  rw [Nat.min_eq_right hlen]
  rw [List.take_of_length_le (le_of_eq (List.mergeSort_perm _ _).length_eq)]
  have hmem : p.1 ∈ (db.dataStore.map
      (fun q => (q.1, nanoHammingDistance qn q.2.matryoshka.nano))).map (fun s => s.1) :=
    List.mem_map.mpr ⟨(p.1, nanoHammingDistance qn p.2.matryoshka.nano),
      List.mem_map.mpr ⟨p, hp, rfl⟩, rfl⟩
  exact (((List.mergeSort_perm _ _).map (fun s : String × Nat => s.1)).mem_iff).mpr hmem

theorem ultra_eq_naive_core (ds : List (String × UltraChunk)) (cand : List String)
    (f : UltraChunk → SearchResult) (limit : Nat)
    (hkeys : (ds.map Prod.fst).Nodup) (hcand : cand.Nodup)
    (hall : ∀ p ∈ ds, p.1 ∈ cand)
    (hsc : (ds.map (fun p => (f p.2).score)).Nodup) :
    ((cand.filterMap (fun id => (alGet ds id).map f)).mergeSort
        (fun a b => decide (b.score ≤ a.score))).take limit
      = ((ds.map (fun p => f p.2)).mergeSort
          (fun a b => decide (b.score ≤ a.score))).take limit := by
  have hperm : (cand.filterMap (fun id => (alGet ds id).map f)).Perm
      (ds.map (fun p => f p.2)) := filterMap_alGet_perm f cand ds hkeys hcand hall
  have hscn : ((ds.map (fun p => f p.2)).map (fun r => r.score)).Nodup := by
    rw [List.map_map]
    exact hsc
  have hscu : ((cand.filterMap (fun id => (alGet ds id).map f)).map
      (fun r => r.score)).Nodup := (hperm.map (fun r => r.score)).nodup_iff.mpr hscn
  have hsorted : ∀ (l : List SearchResult),
      (l.mergeSort (fun a b => decide (b.score ≤ a.score))).Pairwise
        (fun a b => b.score ≤ a.score) := by
    intro l
    have h := @List.sorted_mergeSort SearchResult (fun a b => decide (b.score ≤ a.score))
      (fun a b c hab hbc => by
        simp only [decide_eq_true_eq] at *
        exact le_trans hbc hab)
      (fun a b => by
        simp only [Bool.or_eq_true, decide_eq_true_eq]
        exact le_total b.score a.score)
      l
    exact h.imp (fun hab => of_decide_eq_true hab)
  have hlt1 : ((cand.filterMap (fun id => (alGet ds id).map f)).mergeSort
      (fun a b => decide (b.score ≤ a.score))).Pairwise
        (fun a b => b.score < a.score) := by
    apply pairwise_lt_scores _ (hsorted _)
    exact ((List.mergeSort_perm _ _).map (fun r : SearchResult => r.score)).nodup_iff.mpr hscu
  have hlt2 : ((ds.map (fun p => f p.2)).mergeSort
      (fun a b => decide (b.score ≤ a.score))).Pairwise
        (fun a b => b.score < a.score) := by
    apply pairwise_lt_scores _ (hsorted _)
    exact ((List.mergeSort_perm _ _).map (fun r : SearchResult => r.score)).nodup_iff.mpr hscn
  have hpboth : ((cand.filterMap (fun id => (alGet ds id).map f)).mergeSort
      (fun a b => decide (b.score ≤ a.score))).Perm
      ((ds.map (fun p => f p.2)).mergeSort (fun a b => decide (b.score ≤ a.score))) :=
    ((List.mergeSort_perm _ _).trans hperm).trans (List.mergeSort_perm _ _).symm
  haveI hanti : IsAntisymm SearchResult (fun a b => b.score < a.score) :=
    ⟨fun a b hab hba => absurd (lt_trans hab hba) (lt_irrefl _)⟩
  have heq := List.eq_of_perm_of_sorted hpboth hlt1 hlt2
  rw [heq]

set_option maxRecDepth 8000 in
/-- C10: whenever the chunk store holds at most 500 chunks (with distinct ids
and no two chunks tying on combined score), the Stage 1 binary prefilter
returns every stored id, and `ultraSearch` returns exactly the true
top-`limit` chunks of the entire corpus by combined score: it coincides with
the naive implementation that skips Stages 1 and 2 and scores every chunk. -/
theorem C10_small_corpus_refinement (db : UltraVectorDB) (sq sine : ℚ → ℚ)
    (query : String) (limit : Nat)
    (hsize : db.dataStore.length ≤ 500)
    (hkeys : (db.dataStore.map Prod.fst).Nodup)
    (hscores : (db.dataStore.map (fun p => (UltraVectorDB.scoreChunk sq sine query
        (MatryoshkaGenerator.generateAll sine query).matryoshka.full
        (MatryoshkaGenerator.generateAll sine query).matryoshka.nano p.2).score)).Nodup) :
    (∀ p ∈ db.dataStore, p.1 ∈ db.getBinaryCandidates
        (MatryoshkaGenerator.generateAll sine query).matryoshka.nano 500) ∧
    UltraVectorDB.ultraSearch db sq sine query limit
      = UltraVectorDB.naiveSearch db sq sine query limit := by
  refine ⟨getBinaryCandidates_complete db _ hsize, ?_⟩
  unfold UltraVectorDB.ultraSearch UltraVectorDB.naiveSearch
  by_cases h : query.trim = "" ∨ db.dataStore = []
  · rw [if_pos h, if_pos h]
  · rw [if_neg h, if_neg h]
    exact ultra_eq_naive_core db.dataStore
      (dedup (db.getBinaryCandidates
          (MatryoshkaGenerator.generateAll sine query).matryoshka.nano 500
        ++ db.hnsw.search sq
            (MatryoshkaGenerator.generateAll sine query).matryoshka.medium 50 0))
      (UltraVectorDB.scoreChunk sq sine query
        (MatryoshkaGenerator.generateAll sine query).matryoshka.full
        (MatryoshkaGenerator.generateAll sine query).matryoshka.nano)
      limit hkeys (nodup_dedup _)
      (fun p hp => (mem_dedup _ _).mpr (List.mem_append.mpr (Or.inl
        (getBinaryCandidates_complete db _ hsize p hp))))
      hscores

theorem zip_map_range_singleton {α : Type} (f : Nat → α) (n : Nat) (hn : 0 < n) (b : α) :
    ((List.range n).map f).zip [b] = [(f 0, b)] := by
  cases n with
  | zero => omega
  | succ m =>
    rw [List.range_succ_eq_map, List.map_cons, List.zip_cons_cons, List.zip_nil_right]

theorem cosine_map_range_single (s : ℚ → ℚ) (f : Nat → ℚ) (n : Nat) (hn : 0 < n) (b : ℚ) :
    cosineSimilarity s ((List.range n).map f) [b]
      = if f 0 * f 0 = 0 ∨ b * b = 0 then 0
        else (f 0 * b) / (s (f 0 * f 0) * s (b * b)) := by
  unfold cosineSimilarity
  rw [zip_map_range_singleton f n hn b]
  simp

set_option maxRecDepth 40000 in
/-- Witness for C10 at a concrete two-chunk store whose full vectors point
in opposite directions, giving distinct combined scores. -/
theorem C10_witness :
    ((UltraVectorDB.mk 16 200
        [("x", UltraChunk.mk "x" "x" (MatryoshkaEmbeddings.mk [1] [] [] [] [])
            (ColbertData.mk [] [] [])),
          ("y", UltraChunk.mk "y" "y" (MatryoshkaEmbeddings.mk [-1] [] [] [] [])
            (ColbertData.mk [] [] []))]
        (HNSWGraph.mkEmpty 16 200)).dataStore.length ≤ 500 ∧
      ((UltraVectorDB.mk 16 200
        [("x", UltraChunk.mk "x" "x" (MatryoshkaEmbeddings.mk [1] [] [] [] [])
            (ColbertData.mk [] [] [])),
          ("y", UltraChunk.mk "y" "y" (MatryoshkaEmbeddings.mk [-1] [] [] [] [])
            (ColbertData.mk [] [] []))]
        (HNSWGraph.mkEmpty 16 200)).dataStore.map Prod.fst).Nodup ∧
      ((UltraVectorDB.mk 16 200
        [("x", UltraChunk.mk "x" "x" (MatryoshkaEmbeddings.mk [1] [] [] [] [])
            (ColbertData.mk [] [] [])),
          ("y", UltraChunk.mk "y" "y" (MatryoshkaEmbeddings.mk [-1] [] [] [] [])
            (ColbertData.mk [] [] []))]
        (HNSWGraph.mkEmpty 16 200)).dataStore.map
        (fun p => (UltraVectorDB.scoreChunk (fun _ => 1) (fun _ => 0) "q"
          (MatryoshkaGenerator.generateAll (fun _ => 0) "q").matryoshka.full
          (MatryoshkaGenerator.generateAll (fun _ => 0) "q").matryoshka.nano p.2).score)).Nodup) ∧
    UltraVectorDB.ultraSearch (UltraVectorDB.mk 16 200
        [("x", UltraChunk.mk "x" "x" (MatryoshkaEmbeddings.mk [1] [] [] [] [])
            (ColbertData.mk [] [] [])),
          ("y", UltraChunk.mk "y" "y" (MatryoshkaEmbeddings.mk [-1] [] [] [] [])
            (ColbertData.mk [] [] []))]
        (HNSWGraph.mkEmpty 16 200)) (fun _ => 1) (fun _ => 0) "q" 2
      = UltraVectorDB.naiveSearch (UltraVectorDB.mk 16 200
          [("x", UltraChunk.mk "x" "x" (MatryoshkaEmbeddings.mk [1] [] [] [] [])
              (ColbertData.mk [] [] [])),
            ("y", UltraChunk.mk "y" "y" (MatryoshkaEmbeddings.mk [-1] [] [] [] [])
              (ColbertData.mk [] [] []))]
          (HNSWGraph.mkEmpty 16 200)) (fun _ => 1) (fun _ => 0) "q" 2 := by
  have hfull : (MatryoshkaGenerator.generateAll (fun _ => 0) "q").matryoshka.full
      = (List.range 768).map (fun i : Nat =>
          (0 : ℚ) * 0.5 + ((xorshiftIter 1 (i + 1) : Nat) : ℚ) / 4294967296) := rfl
  have hN : xorshiftIter 1 1 = 270369 := by decide
  have hs1 : (UltraVectorDB.scoreChunk (fun _ => 1) (fun _ => 0) "q"
      (MatryoshkaGenerator.generateAll (fun _ => 0) "q").matryoshka.full
      (MatryoshkaGenerator.generateAll (fun _ => 0) "q").matryoshka.nano
      (UltraChunk.mk "x" "x" (MatryoshkaEmbeddings.mk [1] [] [] [] [])
        (ColbertData.mk [] [] []))).score
      = ColBERTEngine.score (fun _ => 1) (fun _ => 0) "q" (ColbertData.mk [] [] []) * 0.6
        + cosineSimilarity (fun _ => 1)
            (MatryoshkaGenerator.generateAll (fun _ => 0) "q").matryoshka.full [1] * 0.4 := rfl
  have hs2 : (UltraVectorDB.scoreChunk (fun _ => 1) (fun _ => 0) "q"
      (MatryoshkaGenerator.generateAll (fun _ => 0) "q").matryoshka.full
      (MatryoshkaGenerator.generateAll (fun _ => 0) "q").matryoshka.nano
      (UltraChunk.mk "y" "y" (MatryoshkaEmbeddings.mk [-1] [] [] [] [])
        (ColbertData.mk [] [] []))).score
      = ColBERTEngine.score (fun _ => 1) (fun _ => 0) "q" (ColbertData.mk [] [] []) * 0.6
        + cosineSimilarity (fun _ => 1)
            (MatryoshkaGenerator.generateAll (fun _ => 0) "q").matryoshka.full [-1] * 0.4 := rfl
  have hcb : ColBERTEngine.score (fun _ => 1) (fun _ => 0) "q"
      (ColbertData.mk [] [] []) = 0 := by
    unfold ColBERTEngine.score
    rw [if_pos (Or.inl rfl)]
  have hq0 : ((0 : ℚ) * 0.5 + ((xorshiftIter 1 (0 + 1) : Nat) : ℚ) / 4294967296)
      = 270369 / 4294967296 := by
    rw [show (0 : Nat) + 1 = 1 from rfl, hN]
    norm_num
  have hc1 : cosineSimilarity (fun _ => 1)
      (MatryoshkaGenerator.generateAll (fun _ => 0) "q").matryoshka.full [1]
      = (270369 / 4294967296 : ℚ) := by
    rw [hfull, cosine_map_range_single _ _ 768 (by norm_num) 1]
    rw [hq0]
    rw [if_neg (by norm_num)]
    norm_num
  have hc2 : cosineSimilarity (fun _ => 1)
      (MatryoshkaGenerator.generateAll (fun _ => 0) "q").matryoshka.full [-1]
      = -(270369 / 4294967296 : ℚ) := by
    rw [hfull, cosine_map_range_single _ _ 768 (by norm_num) (-1)]
    rw [hq0]
    rw [if_neg (by norm_num)]
    norm_num
  have hsc : ((UltraVectorDB.mk 16 200
      [("x", UltraChunk.mk "x" "x" (MatryoshkaEmbeddings.mk [1] [] [] [] [])
          (ColbertData.mk [] [] [])),
        ("y", UltraChunk.mk "y" "y" (MatryoshkaEmbeddings.mk [-1] [] [] [] [])
          (ColbertData.mk [] [] []))]
      (HNSWGraph.mkEmpty 16 200)).dataStore.map
      (fun p => (UltraVectorDB.scoreChunk (fun _ => 1) (fun _ => 0) "q"
        (MatryoshkaGenerator.generateAll (fun _ => 0) "q").matryoshka.full
        (MatryoshkaGenerator.generateAll (fun _ => 0) "q").matryoshka.nano p.2).score)).Nodup := by
    show (([("x", UltraChunk.mk "x" "x" (MatryoshkaEmbeddings.mk [1] [] [] [] [])
          (ColbertData.mk [] [] [])),
        ("y", UltraChunk.mk "y" "y" (MatryoshkaEmbeddings.mk [-1] [] [] [] [])
          (ColbertData.mk [] [] []))] : List (String × UltraChunk)).map
      (fun p => (UltraVectorDB.scoreChunk (fun _ => 1) (fun _ => 0) "q"
        (MatryoshkaGenerator.generateAll (fun _ => 0) "q").matryoshka.full
        (MatryoshkaGenerator.generateAll (fun _ => 0) "q").matryoshka.nano p.2).score)).Nodup
    rw [List.map_cons, List.map_cons, List.map_nil]
    rw [hs1, hs2, hcb, hc1, hc2]
    norm_num
  exact ⟨⟨by decide, by decide, hsc⟩,
    (C10_small_corpus_refinement (UltraVectorDB.mk 16 200
      [("x", UltraChunk.mk "x" "x" (MatryoshkaEmbeddings.mk [1] [] [] [] [])
          (ColbertData.mk [] [] [])),
        ("y", UltraChunk.mk "y" "y" (MatryoshkaEmbeddings.mk [-1] [] [] [] [])
          (ColbertData.mk [] [] []))]
      (HNSWGraph.mkEmpty 16 200)) (fun _ => 1) (fun _ => 0) "q" 2
      (by decide) (by decide) hsc).2⟩
